import Mathlib

/-!
Verification development for the multi-venue daily-OHLCV harvester
(`scripts/fetch_daily_histories.py`) and the quant metrics engine
(`scripts/compute_quant_insights.py`).

Embedding conventions:
* Python dicts keyed by timestamp or venue name are association lists with
  Python-dict semantics: assigning an existing key replaces the value in
  place, a new key is appended.  All dicts built here have pairwise-distinct
  keys, so lookup order is unambiguous.
* Python `sorted` (a stable sort) is embedded as `List.insertionSort`, which
  is also stable; two stable sorts under the same total preorder agree on
  every input, so this is extensionally faithful.
* OHLCV payload values are decimal strings in the harvester (the script
  stores them via `normalize_number`, which is the identity on strings); the
  metrics script parses closes to floating point, embedded here as exact
  rationals `ℚ`.  The transcendental functions `math.log` and `math.sqrt`
  are abstracted as parameters `logF sqrtF : ℚ → ℚ`, with the domain error
  of `math.log` on non-positive arguments modelled explicitly by `Except`.
* The derived display field `timestamp_iso` of a harvester candle is a pure
  function of `timestamp_ms` and is not modelled; the metrics-side candle
  keeps its `timestamp_iso` because the metrics copy it into their output.
* Wall-clock values (`generated_at`) and file I/O are outside the embedding:
  the persisted record is modelled by its `exchanges` mapping.
-/

namespace CoinHistory

/-- One daily OHLCV candle as produced by `build_candle`
(minus the derived `timestamp_iso` display field). -/
structure Candle where
  timestamp_ms : Int
  open_ : String
  high : String
  low : String
  close : String
  volume : String
deriving DecidableEq, Repr

/-- Model of `build_candle` for string-encoded inputs (where `normalize_number` is the
identity). -/
def buildCandle (ts : Int) (o h l c v : String) : Candle :=
  ⟨ts, o, h, l, c, v⟩

/-- Python-dict insertion: replace the value of an existing key in place,
append a fresh key at the end. -/
def dictInsert {α β : Type} [DecidableEq α] : List (α × β) → α → β → List (α × β)
  | [], k, v => [(k, v)]
  | p :: rest, k, v => if p.1 = k then (k, v) :: rest else p :: dictInsert rest k v

/-- Python-dict lookup (`d.get(k)`): first pair with the given key. -/
def dictLookup {α β : Type} [DecidableEq α] (m : List (α × β)) (k : α) : Option β :=
  (m.find? (fun p => decide (p.1 = k))).map (fun p => p.2)

/-- Keys of an association list, in order. -/
def dictKeys {α β : Type} (m : List (α × β)) : List α := m.map (fun p => p.1)

/-- Fold a pair list into a dict, later assignments overwriting earlier ones
(the semantics of a Python dict comprehension / `dict.update`). -/
def dictUpdate {α β : Type} [DecidableEq α] (d : List (α × β)) (l : List (α × β)) :
    List (α × β) :=
  l.foldl (fun d p => dictInsert d p.1 p.2) d

/-- Dict built from a pair list (a Python dict comprehension). -/
def dictOfPairs {α β : Type} [DecidableEq α] (l : List (α × β)) : List (α × β) :=
  dictUpdate [] l

/-- Left-biased choice on `Option`, mirroring lookup in an overwritten dict. -/
def optOr {α : Type} (a b : Option α) : Option α :=
  match a with
  | some x => some x
  | none => b

/-- Ordering candles by timestamp, the key used by
`sorted(new, key=lambda item: int(item["timestamp_ms"]))`. -/
def candleLE (a b : Candle) : Prop := a.timestamp_ms ≤ b.timestamp_ms

instance : DecidableRel candleLE := fun a b =>
  inferInstanceAs (Decidable (a.timestamp_ms ≤ b.timestamp_ms))

instance : IsTotal Candle candleLE := ⟨fun a b => Int.le_total _ _⟩

instance : IsTrans Candle candleLE := ⟨fun _ _ _ h1 h2 => le_trans h1 h2⟩

/-- Ordering timestamp-keyed dict entries by key, used by
`[combined[key] for key in sorted(combined)]`. -/
def pairLE (a b : Int × Candle) : Prop := a.1 ≤ b.1

instance : DecidableRel pairLE := fun a b =>
  inferInstanceAs (Decidable (a.1 ≤ b.1))

instance : IsTotal (Int × Candle) pairLE := ⟨fun a b => Int.le_total _ _⟩

instance : IsTrans (Int × Candle) pairLE := ⟨fun _ _ _ h1 h2 => le_trans h1 h2⟩

/-- Model of `sorted(candles, key=lambda item: int(item["timestamp_ms"]))`. -/
def sortCandles (l : List Candle) : List Candle :=
  List.insertionSort candleLE l

/-- Model of `merge_candle_lists` from `fetch_daily_histories.py`. -/
def mergeCandleLists (existing new : List Candle) : List Candle :=
  if existing.isEmpty then sortCandles new
  else
    let combined := dictUpdate (dictOfPairs (existing.map (fun c => (c.timestamp_ms, c))))
      (new.map (fun c => (c.timestamp_ms, c)))
    (List.insertionSort pairLE combined).map (fun p => p.2)

/-- First candle of a list carrying a given timestamp. -/
def findByTs (l : List Candle) (t : Int) : Option Candle :=
  l.find? (fun c => decide (c.timestamp_ms = t))

/-- Timestamps of a candle list are pairwise distinct (the series invariant). -/
def tsNodup (l : List Candle) : Prop := (l.map (fun c => c.timestamp_ms)).Nodup

/-- Model of `DAY_MS`. -/
def DAY_MS : Int := 86400000

/-- A resolved market (`MarketRef`). -/
structure MarketRef where
  exchange : String
  base : String
  quote : String
  symbol : String
  market_id : String
deriving DecidableEq, Repr

/-- One venue's sub-record of a persisted asset record (the value stored at
`results[fetcher.name]` by `harvest_coin`). -/
structure ExchangeEntry where
  market : String
  quote : String
  count : Nat
  candles : List Candle
deriving DecidableEq, Repr

/-- A venue fetcher for one harvest run: its name, the outcome of
`resolve_market` (`none` models a `FetchError`), and the outcome of
`fetch_candles` as a function of the `since_ms` argument. -/
structure FetcherSpec where
  name : String
  resolveResult : Option MarketRef
  fetchResult : Option Int → Except Unit (List Candle)

/-- The `since_ms` computation of `harvest_coin` (lines 377-381): in
incremental mode with prior data present, one day past the last stored
timestamp. -/
def sinceFor (incremental : Bool) (existingEntry : Option ExchangeEntry) : Option Int :=
  if incremental then
    match existingEntry with
    | some e =>
      match e.candles.getLast? with
      | some c => some (c.timestamp_ms + DAY_MS)
      | none => none
    | none => none
  else none

/-- One iteration of the venue loop of `harvest_coin`: the entry contributed
to `results` for this fetcher, if any. -/
def processVenue (incremental : Bool) (existingExchanges : List (String × ExchangeEntry))
    (f : FetcherSpec) : Option (String × ExchangeEntry) :=
  match f.resolveResult with
  | none => none
  | some market =>
    let existingEntry := dictLookup existingExchanges f.name
    match f.fetchResult (sinceFor incremental existingEntry) with
    | .error _ =>
      match incremental, existingEntry with
      | true, some e => some (f.name, e)
      | _, _ => none
    | .ok candles =>
      let merged :=
        match incremental, existingEntry with
        | true, some e => mergeCandleLists e.candles candles
        | _, _ => sortCandles candles
      if merged.isEmpty then none
      else some (f.name, ⟨market.symbol, market.quote, merged.length, merged⟩)

/-- Model of `harvest_coin`: fold the venue outcomes into the `results` dict. -/
def harvestCoin (fetchers : List FetcherSpec)
    (existingExchanges : List (String × ExchangeEntry)) (incremental : Bool) :
    List (String × ExchangeEntry) :=
  fetchers.foldl
    (fun res f =>
      match processVenue incremental existingExchanges f with
      | some kv => dictInsert res kv.1 kv.2
      | none => res)
    []

/-- The `markets` value `main` ends up writing for one coin (lines 509-515):
retain the existing exchanges when the harvest produced nothing, otherwise
overlay the harvest results on the existing exchanges (incremental mode). -/
def finalMarkets (existingExchanges harvested : List (String × ExchangeEntry))
    (fullRefresh : Bool) : List (String × ExchangeEntry) :=
  if harvested.isEmpty ∧ ¬existingExchanges.isEmpty ∧ ¬fullRefresh then existingExchanges
  else if ¬existingExchanges.isEmpty ∧ ¬fullRefresh then dictUpdate existingExchanges harvested
  else harvested

/-- The exchanges mapping persisted for one coin after the per-coin step of
`main`: when `markets` is empty the write is skipped and the prior record
stays on disk. -/
def storedAfterRun (existingExchanges harvested : List (String × ExchangeEntry))
    (fullRefresh : Bool) : List (String × ExchangeEntry) :=
  let markets := finalMarkets existingExchanges harvested fullRefresh
  if markets.isEmpty then existingExchanges else markets

/-- Lexicographic comparison of strings by code point, the comparison Python
uses on `ref.symbol`. -/
def charListLE : List Char → List Char → Bool
  | [], _ => true
  | _ :: _, [] => false
  | a :: as, b :: bs =>
    if a.toNat < b.toNat then true
    else if b.toNat < a.toNat then false
    else charListLE as bs

/-- String comparison by code points. -/
def strLE (a b : String) : Bool := charListLE a.data b.data

/-- Model of `_priority_index`: `priorities.index(quote)`, with the `ValueError`
branch returning `len(priorities)` — exactly `List.indexOf`. -/
def priorityIndex (priorities : List String) (quote : String) : Nat :=
  List.indexOf quote priorities

/-- The sort key `(self._priority_index(priorities, ref.quote), ref.symbol)`
compared as a lexicographic pair. -/
def marketLE (prio : List String) (a b : MarketRef) : Prop :=
  priorityIndex prio a.quote < priorityIndex prio b.quote ∨
    (priorityIndex prio a.quote = priorityIndex prio b.quote ∧ strLE a.symbol b.symbol = true)

instance (prio : List String) : DecidableRel (marketLE prio) := fun _ _ =>
  inferInstanceAs (Decidable (_ ∨ _))

/-- Model of `str.upper` (per code point, as for the ASCII tickers used here). -/
def upperStr (s : String) : String := ⟨s.data.map Char.toUpper⟩

/-- Model of `resolve_market`: the first element of the venue's pair list for the
(upper-cased) base, after `prepare` has sorted it by the quote-priority key;
`none` models the `FetchError` raised when no pair exists. -/
def resolveMarket (prio : List String) (catalog : List MarketRef) (base : String) :
    Option MarketRef :=
  let b := upperStr base
  (List.insertionSort (marketLE prio) (catalog.filter (fun r => decide (r.base = b)))).head?

/-- One raw OHLCV row of a CCXT `fetch_ohlcv` response (values already in
their string encoding). -/
structure RawRow where
  ts : Int
  o : String
  h : String
  l : String
  c : String
  v : String
deriving DecidableEq, Repr

/-- Model of `int(self.client.parse_timeframe("1d") * 1000)`. -/
def durationMs : Int := 86400000

/-- Process one batch of `fetch_ohlcv` rows (lines 223-230): state is
`(candles dict, last_ts, new_points)`. -/
def acceptRow (st : List (Int × Candle) × Option Int × Nat) (r : RawRow) :
    List (Int × Candle) × Option Int × Nat :=
  match st.2.1 with
  | some l =>
    if r.ts ≤ l then st
    else (dictInsert st.1 r.ts (buildCandle r.ts r.o r.h r.l r.c r.v), some r.ts, st.2.2 + 1)
  | none =>
    (dictInsert st.1 r.ts (buildCandle r.ts r.o r.h r.l r.c r.v), some r.ts, st.2.2 + 1)

/-- Fold `acceptRow` over a batch starting with zero `new_points`. -/
def processBatch (candles : List (Int × Candle)) (lastTs : Option Int)
    (batch : List RawRow) : List (Int × Candle) × Option Int × Nat :=
  batch.foldl acceptRow (candles, lastTs, 0)

/-- Loop state of `CCXTExchangeFetcher.fetch_candles`. -/
structure FetchState where
  candles : List (Int × Candle)
  lastTs : Option Int
  since : Option Int

/-- The `while True` pagination loop (lines 211-233), fuelled; `none` means
the fuel ran out before the loop broke.  The page function models
`fetch_ohlcv` (its `.error` models a `CCXTError`). -/
def fetchLoop (page : Option Int → Except Unit (List RawRow)) (limit : Nat) :
    Nat → FetchState → Option (Except Unit (List (Int × Candle)))
  | 0, _ => none
  | Nat.succ fuel, st =>
    match page st.since with
    | .error e => some (.error e)
    | .ok batch =>
      if batch.isEmpty then some (.ok st.candles)
      else
        let res := processBatch st.candles st.lastTs batch
        if batch.length < limit ∨ res.2.2 = 0 then some (.ok res.1)
        else fetchLoop page limit fuel
          ⟨res.1, res.2.1, some ((batch.getLastD ⟨0, "", "", "", "", ""⟩).ts + durationMs)⟩

/-- Model of `[candles[ts] for ts in sorted(candles)]`. -/
def orderedFromDict (d : List (Int × Candle)) : List Candle :=
  (List.insertionSort pairLE d).map (fun p => p.2)

/-- Invariant of the CCXT pagination loop state: the candle dict has
pairwise-distinct keys, each entry's candle carries its key as timestamp,
and every key is bounded by `last_ts`. -/
def fetchInv (d : List (Int × Candle)) (lastTs : Option Int) : Prop :=
  (dictKeys d).Nodup ∧ (∀ p ∈ d, p.2.timestamp_ms = p.1) ∧
    ∀ k ∈ dictKeys d, ∃ l, lastTs = some l ∧ k ≤ l

/-- Model of `CCXTExchangeFetcher.fetch_candles`: run the pagination loop, order the
deduplicated candles, and raise when nothing was collected. -/
def ccxtFetchCandles (page : Option Int → Except Unit (List RawRow)) (limit : Nat)
    (sinceMs : Option Int) (fuel : Nat) : Option (Except Unit (List Candle)) :=
  (fetchLoop page limit fuel ⟨[], none, sinceMs⟩).map (fun r =>
    match r with
    | .error e => .error e
    | .ok d =>
      let ordered := orderedFromDict d
      if ordered.isEmpty then .error () else .ok ordered)

/-- One raw row of a Coinbase candles response:
`[time, low, high, open, close, volume]` with the time in seconds. -/
structure CbRow where
  tsSec : Int
  low : String
  high : String
  open_ : String
  close : String
  volume : String
deriving DecidableEq, Repr

/-- The 300-day request window of `CoinbaseFetcher.fetch_candles`, in ms. -/
def windowMs : Int := 300 * 86400000

/-- The start time: `since_ms` when truthy, else the 2015-01-01 default. -/
def cbStart (sinceMs : Option Int) (defaultStartMs : Int) : Int :=
  match sinceMs with
  | some s => if s ≠ 0 then s else defaultStartMs
  | none => defaultStartMs

/-- The `while start < now` window loop of `CoinbaseFetcher.fetch_candles`,
fuelled; each page call models one `fetch_json` candles request. -/
def cbLoop (page : Int → Int → Except Unit (List CbRow)) (now : Int) :
    Nat → Int → List (Int × Candle) → Option (Except Unit (List (Int × Candle)))
  | 0, _, _ => none
  | Nat.succ fuel, start, acc =>
    if start < now then
      let e := min (start + windowMs) now
      match page start e with
      | .error err => some (.error err)
      | .ok batch =>
        let acc2 := batch.foldl
          (fun d r =>
            dictInsert d (r.tsSec * 1000)
              (buildCandle (r.tsSec * 1000) r.open_ r.high r.low r.close r.volume))
          acc
        cbLoop page now fuel e acc2
    else some (.ok acc)

/-- Model of `CoinbaseFetcher.fetch_candles`: run the window loop, order the candles,
and raise when nothing was collected. -/
def coinbaseFetchCandles (page : Int → Int → Except Unit (List CbRow)) (now : Int)
    (sinceMs : Option Int) (defaultStartMs : Int) (fuel : Nat) :
    Option (Except Unit (List Candle)) :=
  (cbLoop page now fuel (cbStart sinceMs defaultStartMs) []).map (fun r =>
    match r with
    | .error e => .error e
    | .ok d =>
      let ordered := orderedFromDict d
      if ordered.isEmpty then .error () else .ok ordered)

end CoinHistory

namespace QuantInsights

/-- A candle as read by `compute_quant_insights.py`: the timestamp key, the
`timestamp_iso` display string it copies into metrics, and the close parsed
to a number (embedded as an exact rational). -/
structure MCandle where
  timestamp_ms : Int
  timestamp_iso : String
  close : ℚ
deriving DecidableEq, Repr

/-- The result record of `compute_series_metrics`. -/
structure SeriesMetrics where
  listing_date : String
  last_date : String
  days : Nat
  cum_return : ℚ
  max_drawdown : ℚ
  volatility : ℚ
deriving DecidableEq, Repr

/-- Model of `statistics.pvariance`: population variance. -/
def pvariance (xs : List ℚ) : ℚ :=
  let n : ℚ := xs.length
  let mu := xs.sum / n
  (xs.map (fun x => (x - mu) ^ 2)).sum / n

/-- Adjacent close pairs `(closes[i-1], closes[i])`. -/
def adjacentPairs (xs : List ℚ) : List (ℚ × ℚ) := xs.zip xs.tail

/-- The log-return comprehension
`[math.log(closes[i] / closes[i - 1]) ... if closes[i - 1] > 0]`, with the
`math domain error` of `math.log` on a non-positive argument modelled by
`.error`: only the previous close is tested by the filter, so a pair with a
positive previous close and a non-positive current close raises. -/
def logReturnsAux (logF : ℚ → ℚ) : List (ℚ × ℚ) → Except Unit (List ℚ)
  | [] => .ok []
  | p :: rest =>
    if 0 < p.1 then
      if p.2 ≤ 0 then .error ()
      else
        match logReturnsAux logF rest with
        | .error e => .error e
        | .ok l => .ok (logF (p.2 / p.1) :: l)
    else logReturnsAux logF rest

/-- Log returns over the adjacent pairs of a close series. -/
def logReturnsE (logF : ℚ → ℚ) (closes : List ℚ) : Except Unit (List ℚ) :=
  logReturnsAux logF (adjacentPairs closes)

/-- One step of the drawdown loop: update the running maximum, and when it is
positive fold the drawdown `price / max_price - 1` into the minimum. -/
def drawdownStep (st : ℚ × ℚ) (price : ℚ) : ℚ × ℚ :=
  let mp := max st.1 price
  if 0 < mp then (mp, min st.2 (price / mp - 1)) else (mp, st.2)

/-- The drawdown loop of `compute_series_metrics`: running maximum seeded
with the first close, minimum seeded with `0.0`. -/
def maxDrawdownOf (closes : List ℚ) (first : ℚ) : ℚ :=
  (closes.foldl drawdownStep (first, 0)).2

/-- Reference form of the per-position drawdowns: `price` divided by the
running maximum so far (which starts at `first` and absorbs each price),
minus one. -/
def ddValuesAux (mp : ℚ) : List ℚ → List ℚ
  | [] => []
  | p :: rest =>
    let mp2 := max mp p
    (p / mp2 - 1) :: ddValuesAux mp2 rest

/-- Drawdown values over a whole close series. -/
def ddValues (first : ℚ) (closes : List ℚ) : List ℚ := ddValuesAux first closes

/-- The running-maximum sequence paired with `ddValues`. -/
def maxScanAux (mp : ℚ) : List ℚ → List ℚ
  | [] => []
  | p :: rest =>
    let mp2 := max mp p
    mp2 :: maxScanAux mp2 rest

/-- Running maxima over a whole close series. -/
def maxScan (first : ℚ) (closes : List ℚ) : List ℚ := maxScanAux first closes

/-- Model of `compute_series_metrics`: `.ok none` is the `return None` guard,
`.error` is an uncaught `math domain error` escaping from the log-return
comprehension. -/
def computeSeriesMetrics (logF sqrtF : ℚ → ℚ) (candles : List MCandle) :
    Except Unit (Option SeriesMetrics) :=
  if candles.length < 2 then .ok none
  else
    let closes := candles.map (fun c => c.close)
    let first := closes.headD 0
    let last := closes.getLastD 0
    if first ≤ 0 ∨ last ≤ 0 then .ok none
    else
      match logReturnsE logF closes with
      | .error e => .error e
      | .ok lr =>
        let volatility := if lr.isEmpty then 0 else sqrtF (pvariance lr) * sqrtF 365
        .ok (some
          { listing_date := (candles.headD ⟨0, "", 0⟩).timestamp_iso
            last_date := (candles.getLastD ⟨0, "", 0⟩).timestamp_iso
            days := candles.length
            cum_return := last / first - 1
            max_drawdown := maxDrawdownOf closes first
            volatility := volatility })

/-- One venue's series as read by the metrics script (`data.get("candles")`;
the other keys of the stored entry are unused there). -/
structure ExchangeSeries where
  candles : List MCandle
deriving DecidableEq, Repr

/-- All `(timestamp, close)` pairs over all venues, in iteration order. -/
def allTsClosePairs (exchanges : List (String × ExchangeSeries)) : List (Int × ℚ) :=
  (exchanges.map (fun kv => kv.2.candles.map (fun c => (c.timestamp_ms, c.close)))).flatten

/-- Keys in order of first appearance, skipping keys already seen. -/
def insertionKeysAux (seen : List Int) : List Int → List Int
  | [] => []
  | k :: rest =>
    if k ∈ seen then insertionKeysAux seen rest
    else k :: insertionKeysAux (k :: seen) rest

/-- Keys in order of first appearance (Python `defaultdict` insertion order). -/
def insertionKeys (l : List Int) : List Int := insertionKeysAux [] l

/-- All closes grouped under one timestamp. -/
def closesAt (ps : List (Int × ℚ)) (t : Int) : List ℚ :=
  (ps.filter (fun p => decide (p.1 = t))).map (fun p => p.2)

/-- Python `max` over a non-empty list (junk `0` on `[]`, never reached). -/
def listMax : List ℚ → ℚ
  | [] => 0
  | h :: t => t.foldl max h

/-- Python `min` over a non-empty list (junk `0` on `[]`, never reached). -/
def listMin : List ℚ → ℚ
  | [] => 0
  | h :: t => t.foldl min h

/-- Model of `statistics.median`: sort, take the middle element, or the mean of the
two middle elements when the length is even (junk `0` on `[]`; the script
only reaches it on non-empty data or crashes first, which is modelled
explicitly where it matters). -/
def medianQ (l : List ℚ) : ℚ :=
  let s := List.insertionSort (fun a b : ℚ => a ≤ b) l
  let n := s.length
  if n % 2 = 1 then s.getD (n / 2) 0
  else (s.getD (n / 2 - 1) 0 + s.getD (n / 2) 0) / 2

/-- The relative spread contributed by one timestamp group, when any:
requires at least two closes and a positive midpoint, where the midpoint is
`(max + min) / 2` guarded to `0` when `max + min` is zero. -/
def relOf (ps : List (Int × ℚ)) (t : Int) : Option ℚ :=
  let cs := closesAt ps t
  if cs.length < 2 then none
  else
    let mx := listMax cs
    let mn := listMin cs
    let mid := if mx + mn ≠ 0 then (mx + mn) / 2 else 0
    if 0 < mid then some ((mx - mn) / mid) else none

/-- The absolute spread contributed by one timestamp group, when any. -/
def absOf (ps : List (Int × ℚ)) (t : Int) : Option ℚ :=
  let cs := closesAt ps t
  if cs.length < 2 then none else some (listMax cs - listMin cs)

/-- The body of the loop over timestamp groups in
`compute_cross_exchange_spread`: append to the `spreads` accumulator when
there are at least two closes and the midpoint is positive, and to the
`absolute_spreads` accumulator whenever there are at least two closes. -/
def spreadStep (ps : List (Int × ℚ)) (acc : List ℚ × List ℚ) (t : Int) :
    List ℚ × List ℚ :=
  let cs := closesAt ps t
  if cs.length < 2 then acc
  else
    let mx := listMax cs
    let mn := listMin cs
    let mid := if mx + mn ≠ 0 then (mx + mn) / 2 else 0
    let rel := if 0 < mid then acc.1 ++ [(mx - mn) / mid] else acc.1
    (rel, acc.2 ++ [mx - mn])

/-- The accumulation loop over timestamp groups in
`compute_cross_exchange_spread`: build the `spreads` and `absolute_spreads`
lists. -/
def spreadLists (exchanges : List (String × ExchangeSeries)) : List ℚ × List ℚ :=
  let ps := allTsClosePairs exchanges
  (insertionKeys (ps.map (fun p => p.1))).foldl (spreadStep ps) ([], [])

/-- Model of `compute_cross_exchange_spread`: `(None, None)` exactly when the
relative-spread list is empty, else the medians of the two lists. -/
def computeCrossExchangeSpread (exchanges : List (String × ExchangeSeries)) :
    Option ℚ × Option ℚ :=
  let sp := spreadLists exchanges
  if sp.1.isEmpty then (none, none)
  else (some (medianQ sp.1), some (medianQ sp.2))

/-- Model of `PRIMARY_EXCHANGE_ORDER`. -/
def PRIMARY_EXCHANGE_ORDER : List String := ["binance", "coinbase", "okx", "bybit", "upbit"]

/-- A stored per-coin payload as seen by the metrics script. -/
structure Payload where
  exchanges : List (String × ExchangeSeries)
deriving DecidableEq, Repr

/-- Venue-name dict lookup for the metrics side. -/
def exLookup (m : List (String × ExchangeSeries)) (k : String) : Option ExchangeSeries :=
  (m.find? (fun p => decide (p.1 = k))).map (fun p => p.2)

/-- The coin-level metrics record assembled by `build_coin_metrics`. -/
structure CoinMetrics where
  coin : String
  primary_exchange : String
  median_rel_spread : Option ℚ
  median_abs_spread : Option ℚ
  series : SeriesMetrics
deriving DecidableEq, Repr

/-- Model of `build_coin_metrics`: pick the primary venue by the fixed priority order
(falling back to the first venue present), compute its series metrics
(`None` fails the coin), collect per-venue series metrics for global
aggregation, and attach the cross-venue spread medians.  An `.error` is an
uncaught crash of `compute_series_metrics`. -/
def buildCoinMetrics (logF sqrtF : ℚ → ℚ) (coin : String) (payload : Payload) :
    Except Unit (Option (CoinMetrics × List (String × SeriesMetrics))) :=
  let exchanges := payload.exchanges
  if exchanges.isEmpty then .ok none
  else
    let primary := (PRIMARY_EXCHANGE_ORDER.find?
      (fun k => (exLookup exchanges k).isSome)).getD ((exchanges.headD ("", ⟨[]⟩)).1)
    let primaryCandles := ((exLookup exchanges primary).getD ⟨[]⟩).candles
    match computeSeriesMetrics logF sqrtF primaryCandles with
    | .error e => .error e
    | .ok none => .ok none
    | .ok (some sm) =>
      let vmE := exchanges.foldr
        (fun kv acc =>
          match acc with
          | .error e => Except.error e
          | .ok rest =>
            match computeSeriesMetrics logF sqrtF kv.2.candles with
            | .error e => .error e
            | .ok none => .ok rest
            | .ok (some m) => .ok ((kv.1, m) :: rest))
        (Except.ok ([] : List (String × SeriesMetrics)))
      match vmE with
      | .error e => .error e
      | .ok vm =>
        let sp := computeCrossExchangeSpread exchanges
        .ok (some (⟨coin, primary, sp.1, sp.2, sm⟩, vm))

/-- Failure modes of the aggregation run (`compute_quant_insights.main`). -/
inductive AggError
  | noCoins
  | noMetrics
  | seriesCrash
  | statsError
deriving DecidableEq, Repr

/-- The `summary` block of the insights report. -/
structure Summary where
  coinsCount : Nat
  median_cum_return : ℚ
  median_drawdown : ℚ
  median_volatility : ℚ
  median_spread : ℚ
deriving DecidableEq, Repr

/-- The per-coin loop of `main`: build the `per_coin` dict, skipping coins
with no readable history and coins whose metrics come back `None`, and
propagating a metrics crash. -/
def perCoinRun (logF sqrtF : ℚ → ℚ) (coins : List String)
    (hist : List (String × Payload)) : Except Unit (List (String × CoinMetrics)) :=
  coins.foldl
    (fun acc coin =>
      match acc with
      | .error e => Except.error e
      | .ok d =>
        match (hist.find? (fun p => decide (p.1 = coin))).map (fun p => p.2) with
        | none => .ok d
        | some p =>
          match buildCoinMetrics logF sqrtF coin p with
          | .error e => .error e
          | .ok none => .ok d
          | .ok (some (m, _vm)) =>
            .ok ((fun d2 => if d2.any (fun q => decide (q.1 = coin))
              then d2.map (fun q => if q.1 = coin then (coin, m) else q)
              else d2 ++ [(coin, m)]) d))
    (Except.ok ([] : List (String × CoinMetrics)))

/-- Model of `compute_quant_insights.main` through the construction of the `summary`
block: fail on an empty catalog, on zero usable coins, on a metrics crash,
and on `statistics.median` of an empty sequence when every usable coin has a
null spread (the rankings and distributions assembled afterwards are pure
reshufflings of the values computed here and cannot fail). -/
def mainModel (logF sqrtF : ℚ → ℚ) (coins : List String)
    (hist : List (String × Payload)) : Except AggError Summary :=
  if coins.isEmpty then .error .noCoins
  else
    match perCoinRun logF sqrtF coins hist with
    | .error _ => .error .seriesCrash
    | .ok perCoin =>
      let ms := perCoin.map (fun kv => kv.2)
      if ms.isEmpty then .error .noMetrics
      else
        let spreadVals := ms.filterMap (fun m => m.median_rel_spread)
        if spreadVals.isEmpty then .error .statsError
        else
          .ok
            { coinsCount := ms.length
              median_cum_return := medianQ (ms.map (fun m => m.series.cum_return))
              median_drawdown := medianQ (ms.map (fun m => m.series.max_drawdown))
              median_volatility := medianQ (ms.map (fun m => m.series.volatility))
              median_spread := medianQ spreadVals }

end QuantInsights


namespace CoinHistory

theorem optOr_none_left {α : Type} (b : Option α) : optOr none b = b := rfl

theorem optOr_none_right {α : Type} (a : Option α) : optOr a none = a := by
  cases a <;> rfl

theorem optOr_assoc {α : Type} (a b c : Option α) :
    optOr (optOr a b) c = optOr a (optOr b c) := by
  cases a <;> rfl

theorem optOr_self_absorb {α : Type} (a b : Option α) :
    optOr a (optOr a b) = optOr a b := by
  cases a <;> rfl

theorem optOr_isSome {α : Type} (a b : Option α) :
    (optOr a b).isSome = (a.isSome || b.isSome) := by
  cases a <;> rfl

theorem dictKeys_cons {α β : Type} (p : α × β) (m : List (α × β)) :
    dictKeys (p :: m) = p.1 :: dictKeys m := rfl

theorem dictLookup_nil {α β : Type} [DecidableEq α] (t : α) :
    dictLookup ([] : List (α × β)) t = none := rfl

theorem dictLookup_cons {α β : Type} [DecidableEq α] (p : α × β) (m : List (α × β)) (t : α) :
    dictLookup (p :: m) t = if p.1 = t then some p.2 else dictLookup m t := by
  by_cases h : p.1 = t <;> simp [dictLookup, List.find?, h]

theorem dictLookup_append {α β : Type} [DecidableEq α] (m1 m2 : List (α × β)) (t : α) :
    dictLookup (m1 ++ m2) t = optOr (dictLookup m1 t) (dictLookup m2 t) := by
  induction m1 with
  | nil => simp [dictLookup_nil, optOr_none_left]
  | cons p m1 ih =>
    rw [List.cons_append, dictLookup_cons, dictLookup_cons]
    by_cases h : p.1 = t
    · simp [h, optOr]
    · simp [h, ih]

theorem dictLookup_insert {α β : Type} [DecidableEq α] (m : List (α × β)) (k t : α) (v : β) :
    dictLookup (dictInsert m k v) t = if t = k then some v else dictLookup m t := by
  induction m with
  | nil =>
    rw [dictInsert, dictLookup_cons, dictLookup_nil]
    by_cases h : t = k
    · simp [h]
    · simp [h, Ne.symm h]
  | cons p m ih =>
    rw [dictInsert]
    by_cases hp : p.1 = k
    · rw [if_pos hp, dictLookup_cons, dictLookup_cons]
      by_cases h : t = k
      · simp [h]
      · have h2 : ¬(p.1 = t) := by
          rw [hp]
          exact Ne.symm h
        simp [Ne.symm h, h, h2]
    · rw [if_neg hp, dictLookup_cons, dictLookup_cons, ih]
      by_cases h : p.1 = t
      · have h1 : ¬(t = k) := by
          intro hh
          exact hp (h.trans hh)
        simp [h, h1]
      · simp [h]

theorem dictLookup_eq_none_iff {α β : Type} [DecidableEq α] (m : List (α × β)) (t : α) :
    dictLookup m t = none ↔ t ∉ dictKeys m := by
  constructor
  · intro h hmem
    rcases List.mem_map.mp hmem with ⟨p, hp, hpt⟩
    have h' : (m.find? (fun q => decide (q.1 = t))).map (fun q => q.2) = none := h
    have hf := Option.map_eq_none'.mp h'
    have hne := List.find?_eq_none.mp hf p hp
    exact hne (by simp [hpt])
  · intro h
    have hf : m.find? (fun q => decide (q.1 = t)) = none := by
      rw [List.find?_eq_none]
      intro p hp
      simp only [decide_eq_true_eq]
      intro he
      exact h (List.mem_map.mpr ⟨p, hp, he⟩)
    simp [dictLookup, hf]

theorem dictLookup_isSome_iff {α β : Type} [DecidableEq α] (m : List (α × β)) (t : α) :
    (dictLookup m t).isSome ↔ t ∈ dictKeys m := by
  rcases h : dictLookup m t with _ | v
  · simp [(dictLookup_eq_none_iff m t).mp h]
  · simp only [Option.isSome_some, true_iff]
    by_contra hmem
    rw [(dictLookup_eq_none_iff m t).mpr hmem] at h
    cases h

theorem mem_of_dictLookup_eq_some {α β : Type} [DecidableEq α] {m : List (α × β)} {t : α}
    {v : β} (h : dictLookup m t = some v) : (t, v) ∈ m := by
  rcases hf : m.find? (fun p => decide (p.1 = t)) with _ | p
  · simp [dictLookup, hf] at h
  · have hp := List.find?_some hf
    have hmem := List.mem_of_find?_eq_some hf
    simp only [decide_eq_true_eq] at hp
    have hv : p.2 = v := by simpa [dictLookup, hf] using h
    have hpv : p = (t, v) := by
      cases p
      simp_all
    rwa [hpv] at hmem

theorem dictLookup_eq_some_of_mem_nodup {α β : Type} [DecidableEq α] {m : List (α × β)}
    {t : α} {v : β} (hnd : (dictKeys m).Nodup) (hmem : (t, v) ∈ m) :
    dictLookup m t = some v := by
  induction m with
  | nil => cases hmem
  | cons p m ih =>
    rw [dictKeys_cons, List.nodup_cons] at hnd
    rcases List.mem_cons.mp hmem with h | h
    · rw [← h, dictLookup_cons, if_pos rfl]
    · rw [dictLookup_cons]
      have ht : t ∈ dictKeys m := List.mem_map.mpr ⟨(t, v), h, rfl⟩
      have hne : ¬p.1 = t := by
        intro he
        exact hnd.1 (he ▸ ht)
      rw [if_neg hne]
      exact ih hnd.2 h

theorem dictLookup_perm {α β : Type} [DecidableEq α] {m m2 : List (α × β)}
    (hnd : (dictKeys m).Nodup) (hp : m.Perm m2) (t : α) :
    dictLookup m2 t = dictLookup m t := by
  have hkp : (dictKeys m).Perm (dictKeys m2) := hp.map (fun p : α × β => p.1)
  have hnd2 : (dictKeys m2).Nodup := hkp.nodup_iff.mp hnd
  rcases h : dictLookup m t with _ | v
  · rw [dictLookup_eq_none_iff] at h ⊢
    intro hmem
    exact h (hkp.mem_iff.mpr hmem)
  · exact dictLookup_eq_some_of_mem_nodup hnd2 (hp.mem_iff.mp (mem_of_dictLookup_eq_some h))

theorem dictKeys_insert {α β : Type} [DecidableEq α] (m : List (α × β)) (k : α) (v : β) :
    dictKeys (dictInsert m k v) =
      if k ∈ dictKeys m then dictKeys m else dictKeys m ++ [k] := by
  induction m with
  | nil => simp [dictInsert, dictKeys]
  | cons p m ih =>
    rw [dictInsert]
    by_cases hp : p.1 = k
    · have hk : k ∈ dictKeys (p :: m) := by
        rw [dictKeys_cons, hp]
        exact List.mem_cons_self _ _
      rw [if_pos hp, if_pos hk, dictKeys_cons, dictKeys_cons, hp]
    · have hne : k ≠ p.1 := fun hh => hp hh.symm
      rw [if_neg hp, dictKeys_cons, dictKeys_cons, ih]
      by_cases hk : k ∈ dictKeys m
      · rw [if_pos hk, if_pos (show k ∈ p.1 :: dictKeys m from List.mem_cons_of_mem _ hk)]
      · rw [if_neg hk, if_neg (show k ∉ p.1 :: dictKeys m from by simp [hne, hk]),
          List.cons_append]

theorem dictKeys_insert_nodup {α β : Type} [DecidableEq α] {m : List (α × β)} (k : α) (v : β)
    (hnd : (dictKeys m).Nodup) : (dictKeys (dictInsert m k v)).Nodup := by
  rw [dictKeys_insert]
  by_cases hk : k ∈ dictKeys m
  · simpa [hk] using hnd
  · rw [if_neg hk]
    simp [List.nodup_append, hnd, hk]

theorem dictKeys_update_nodup {α β : Type} [DecidableEq α] {d : List (α × β)}
    (l : List (α × β)) (hnd : (dictKeys d).Nodup) : (dictKeys (dictUpdate d l)).Nodup := by
  induction l generalizing d with
  | nil => exact hnd
  | cons p l ih => exact ih (dictKeys_insert_nodup p.1 p.2 hnd)

theorem dictLookup_dictUpdate {α β : Type} [DecidableEq α] (d l : List (α × β)) (t : α) :
    dictLookup (dictUpdate d l) t = optOr (dictLookup l.reverse t) (dictLookup d t) := by
  induction l generalizing d with
  | nil => simp [dictUpdate, dictLookup_nil, optOr_none_left]
  | cons p l ih =>
    have step : dictUpdate d (p :: l) = dictUpdate (dictInsert d p.1 p.2) l := rfl
    rw [step, ih, List.reverse_cons, dictLookup_append, optOr_assoc]
    congr 1
    rw [dictLookup_insert]
    by_cases h : t = p.1
    · rw [if_pos h, dictLookup_cons, dictLookup_nil, if_pos h.symm]
      rfl
    · rw [if_neg h, dictLookup_cons, dictLookup_nil, if_neg (fun hh => h hh.symm)]
      rfl

end CoinHistory

namespace CoinHistory

theorem findByTs_nil (t : Int) : findByTs [] t = none := rfl

theorem findByTs_cons (c : Candle) (l : List Candle) (t : Int) :
    findByTs (c :: l) t = if c.timestamp_ms = t then some c else findByTs l t := by
  by_cases h : c.timestamp_ms = t <;> simp [findByTs, List.find?, h]

theorem findByTs_eq_none_iff (l : List Candle) (t : Int) :
    findByTs l t = none ↔ ∀ c ∈ l, c.timestamp_ms ≠ t := by
  simp [findByTs, List.find?_eq_none]

theorem findByTs_isSome_iff (l : List Candle) (t : Int) :
    (findByTs l t).isSome ↔ t ∈ l.map (fun c => c.timestamp_ms) := by
  simp only [findByTs, List.find?_isSome, decide_eq_true_eq, List.mem_map]

theorem findByTs_prop {l : List Candle} {t : Int} {c : Candle}
    (h : findByTs l t = some c) : c ∈ l ∧ c.timestamp_ms = t :=
  ⟨List.mem_of_find?_eq_some h, by simpa using List.find?_some h⟩

theorem findByTs_eq_some_iff {l : List Candle} (hnd : tsNodup l) (t : Int) (c : Candle) :
    findByTs l t = some c ↔ c ∈ l ∧ c.timestamp_ms = t := by
  constructor
  · exact findByTs_prop
  · rintro ⟨hmem, ht⟩
    induction l with
    | nil => cases hmem
    | cons a l ih =>
      rw [tsNodup, List.map_cons, List.nodup_cons] at hnd
      rcases List.mem_cons.mp hmem with h | h
      · rw [← h, findByTs_cons, if_pos ht]
      · rw [findByTs_cons]
        have hat : ¬a.timestamp_ms = t := by
          intro he
          exact hnd.1 (by
            rw [he, ← ht]
            exact List.mem_map.mpr ⟨c, h, rfl⟩)
        rw [if_neg hat]
        exact ih hnd.2 h

theorem tsNodup_of_perm {l l2 : List Candle} (hnd : tsNodup l) (hp : l.Perm l2) :
    tsNodup l2 :=
  ((hp.map (fun c : Candle => c.timestamp_ms)).nodup_iff).mp hnd

theorem findByTs_perm {l l2 : List Candle} (hnd : tsNodup l) (hp : l.Perm l2) (t : Int) :
    findByTs l2 t = findByTs l t := by
  have hnd2 : tsNodup l2 := tsNodup_of_perm hnd hp
  rcases h : findByTs l t with _ | c
  · rw [findByTs_eq_none_iff] at h ⊢
    intro c hc
    exact h c (hp.mem_iff.mpr hc)
  · have hc := findByTs_prop h
    exact (findByTs_eq_some_iff hnd2 t c).mpr ⟨hp.mem_iff.mp hc.1, hc.2⟩

theorem findByTs_reverse {l : List Candle} (hnd : tsNodup l) (t : Int) :
    findByTs l.reverse t = findByTs l t :=
  findByTs_perm hnd (List.reverse_perm l).symm t

theorem dictLookup_map_pairs (l : List Candle) (t : Int) :
    dictLookup (l.map (fun c => (c.timestamp_ms, c))) t = findByTs l t := by
  induction l with
  | nil => rfl
  | cons c l ih => rw [List.map_cons, dictLookup_cons, findByTs_cons, ih]

theorem pairsWF_insert {m : List (Int × Candle)} {k : Int} {c : Candle}
    (h : ∀ p ∈ m, p.2.timestamp_ms = p.1) (hc : c.timestamp_ms = k) :
    ∀ p ∈ dictInsert m k c, p.2.timestamp_ms = p.1 := by
  induction m with
  | nil =>
    intro p hp
    rcases List.mem_singleton.mp hp with rfl
    exact hc
  | cons q m ih =>
    intro p hp
    rw [dictInsert] at hp
    by_cases hq : q.1 = k
    · rw [if_pos hq] at hp
      rcases List.mem_cons.mp hp with rfl | hmem
      · exact hc
      · exact h p (List.mem_cons_of_mem _ hmem)
    · rw [if_neg hq] at hp
      rcases List.mem_cons.mp hp with rfl | hmem
      · exact h p (List.mem_cons_self _ _)
      · exact ih (fun r hr => h r (List.mem_cons_of_mem _ hr)) p hmem

theorem pairsWF_update {d l : List (Int × Candle)}
    (hd : ∀ p ∈ d, p.2.timestamp_ms = p.1) (hl : ∀ p ∈ l, p.2.timestamp_ms = p.1) :
    ∀ p ∈ dictUpdate d l, p.2.timestamp_ms = p.1 := by
  induction l generalizing d with
  | nil => exact hd
  | cons q l ih =>
    have step : dictUpdate d (q :: l) = dictUpdate (dictInsert d q.1 q.2) l := rfl
    rw [step]
    exact ih (pairsWF_insert hd (hl q (List.mem_cons_self _ _)))
      (fun r hr => hl r (List.mem_cons_of_mem _ hr))

theorem pairsWF_map_pairs (l : List Candle) :
    ∀ p ∈ l.map (fun c => (c.timestamp_ms, c)), p.2.timestamp_ms = p.1 := by
  intro p hp
  rcases List.mem_map.mp hp with ⟨c, _, rfl⟩
  rfl

theorem findByTs_map_snd {m : List (Int × Candle)}
    (hWF : ∀ p ∈ m, p.2.timestamp_ms = p.1) (t : Int) :
    findByTs (m.map (fun p => p.2)) t = dictLookup m t := by
  induction m with
  | nil => rfl
  | cons p m ih =>
    rw [List.map_cons, findByTs_cons, dictLookup_cons,
      hWF p (List.mem_cons_self _ _), ih (fun r hr => hWF r (List.mem_cons_of_mem _ hr))]

theorem pairwise_lt_of_le_nodup {L : List Int} (hle : L.Pairwise (· ≤ ·)) (hnd : L.Nodup) :
    L.Pairwise (· < ·) :=
  (hle.and hnd).imp (fun hab => lt_of_le_of_ne hab.1 hab.2)

/-- The `combined` dict of `merge_candle_lists` in the non-empty branch. -/
theorem merge_combined_facts (e n : List Candle) :
    (∀ p ∈ dictUpdate (dictOfPairs (e.map (fun c => (c.timestamp_ms, c))))
        (n.map (fun c => (c.timestamp_ms, c))), p.2.timestamp_ms = p.1)
    ∧ (dictKeys (dictUpdate (dictOfPairs (e.map (fun c => (c.timestamp_ms, c))))
        (n.map (fun c => (c.timestamp_ms, c))))).Nodup := by
  constructor
  · exact pairsWF_update (pairsWF_update (fun p hp => absurd hp (List.not_mem_nil p))
      (pairsWF_map_pairs e)) (pairsWF_map_pairs n)
  · exact dictKeys_update_nodup _ (dictKeys_update_nodup _ (List.nodup_nil))

theorem dictLookup_merge_combined (e n : List Candle) (he : tsNodup e) (hn : tsNodup n)
    (t : Int) :
    dictLookup (dictUpdate (dictOfPairs (e.map (fun c => (c.timestamp_ms, c))))
        (n.map (fun c => (c.timestamp_ms, c)))) t
      = optOr (findByTs n t) (findByTs e t) := by
  rw [dictLookup_dictUpdate, dictOfPairs, dictLookup_dictUpdate, dictLookup_nil,
    optOr_none_right, ← List.map_reverse, ← List.map_reverse, dictLookup_map_pairs,
    dictLookup_map_pairs, findByTs_reverse he, findByTs_reverse hn]

theorem findByTs_merge (e n : List Candle) (he : tsNodup e) (hn : tsNodup n) (t : Int) :
    findByTs (mergeCandleLists e n) t = optOr (findByTs n t) (findByTs e t) := by
  unfold mergeCandleLists
  by_cases hemp : e.isEmpty
  · rw [if_pos hemp]
    have he0 : e = [] := List.isEmpty_iff.mp hemp
    unfold sortCandles
    rw [findByTs_perm hn (List.perm_insertionSort candleLE n).symm, he0, findByTs_nil,
      optOr_none_right]
  · rw [if_neg hemp]
    have hperm := List.perm_insertionSort pairLE
      (dictUpdate (dictOfPairs (e.map (fun c => (c.timestamp_ms, c))))
        (n.map (fun c => (c.timestamp_ms, c))))
    have hWF := (merge_combined_facts e n).1
    have hWFs : ∀ p ∈ List.insertionSort pairLE
        (dictUpdate (dictOfPairs (e.map (fun c => (c.timestamp_ms, c))))
          (n.map (fun c => (c.timestamp_ms, c)))), p.2.timestamp_ms = p.1 :=
      fun p hp => hWF p (hperm.mem_iff.mp hp)
    rw [findByTs_map_snd hWFs, dictLookup_perm (merge_combined_facts e n).2 hperm.symm,
      dictLookup_merge_combined e n he hn]

theorem merge_ts_pairwise (e n : List Candle) (he : tsNodup e) (hn : tsNodup n) :
    ((mergeCandleLists e n).map (fun c => c.timestamp_ms)).Pairwise (· < ·) := by
  unfold mergeCandleLists
  by_cases hemp : e.isEmpty
  · rw [if_pos hemp]
    have hsorted := List.sorted_insertionSort candleLE n
    have hle : ((List.insertionSort candleLE n).map (fun c => c.timestamp_ms)).Pairwise
        (· ≤ ·) := List.pairwise_map.mpr hsorted
    have hnd : tsNodup (List.insertionSort candleLE n) :=
      tsNodup_of_perm hn (List.perm_insertionSort candleLE n).symm
    exact pairwise_lt_of_le_nodup hle hnd
  · rw [if_neg hemp]
    have hperm := List.perm_insertionSort pairLE
      (dictUpdate (dictOfPairs (e.map (fun c => (c.timestamp_ms, c))))
        (n.map (fun c => (c.timestamp_ms, c))))
    have hWFs : ∀ p ∈ List.insertionSort pairLE
        (dictUpdate (dictOfPairs (e.map (fun c => (c.timestamp_ms, c))))
          (n.map (fun c => (c.timestamp_ms, c)))), p.2.timestamp_ms = p.1 :=
      fun p hp => (merge_combined_facts e n).1 p (hperm.mem_iff.mp hp)
    have hmapeq : (List.insertionSort pairLE
        (dictUpdate (dictOfPairs (e.map (fun c => (c.timestamp_ms, c))))
          (n.map (fun c => (c.timestamp_ms, c))))).map ((fun c => c.timestamp_ms) ∘
            (fun p => p.2))
        = (List.insertionSort pairLE
          (dictUpdate (dictOfPairs (e.map (fun c => (c.timestamp_ms, c))))
            (n.map (fun c => (c.timestamp_ms, c))))).map (fun p => p.1) :=
      List.map_congr_left (fun p hp => hWFs p hp)
    rw [List.map_map, hmapeq]
    have hsorted := List.sorted_insertionSort pairLE
      (dictUpdate (dictOfPairs (e.map (fun c => (c.timestamp_ms, c))))
        (n.map (fun c => (c.timestamp_ms, c))))
    have hle : ((List.insertionSort pairLE
        (dictUpdate (dictOfPairs (e.map (fun c => (c.timestamp_ms, c))))
          (n.map (fun c => (c.timestamp_ms, c))))).map (fun p => p.1)).Pairwise (· ≤ ·) :=
      List.pairwise_map.mpr hsorted
    have hnd : ((List.insertionSort pairLE
        (dictUpdate (dictOfPairs (e.map (fun c => (c.timestamp_ms, c))))
          (n.map (fun c => (c.timestamp_ms, c))))).map (fun p => p.1)).Nodup :=
      ((hperm.map (fun p : Int × Candle => p.1)).nodup_iff).mpr (merge_combined_facts e n).2
    exact pairwise_lt_of_le_nodup hle hnd

theorem tsNodup_merge (e n : List Candle) (he : tsNodup e) (hn : tsNodup n) :
    tsNodup (mergeCandleLists e n) :=
  (merge_ts_pairwise e n he hn).imp (fun hab => ne_of_lt hab)

theorem eq_of_strict_sorted_findByTs {l1 l2 : List Candle}
    (h1 : (l1.map (fun c => c.timestamp_ms)).Pairwise (· < ·))
    (h2 : (l2.map (fun c => c.timestamp_ms)).Pairwise (· < ·))
    (hf : ∀ t, findByTs l1 t = findByTs l2 t) : l1 = l2 := by
  induction l1 generalizing l2 with
  | nil =>
    cases l2 with
    | nil => rfl
    | cons b l2 =>
      have := hf b.timestamp_ms
      rw [findByTs_nil, findByTs_cons, if_pos rfl] at this
      cases this
  | cons a l1 ih =>
    cases l2 with
    | nil =>
      have := hf a.timestamp_ms
      rw [findByTs_nil, findByTs_cons, if_pos rfl] at this
      cases this
    | cons b l2 =>
      rw [List.map_cons, List.pairwise_cons] at h1 h2
      have hab : a = b := by
        have hfa := hf a.timestamp_ms
        rw [findByTs_cons, if_pos rfl, findByTs_cons] at hfa
        by_cases hba : b.timestamp_ms = a.timestamp_ms
        · rw [if_pos hba] at hfa
          exact Option.some_injective _ hfa
        · rw [if_neg hba] at hfa
          have hamem := findByTs_prop hfa.symm
          have hfb := (hf b.timestamp_ms).symm
          rw [findByTs_cons, if_pos rfl, findByTs_cons,
            if_neg (fun hh => hba hh.symm)] at hfb
          have hbmem := findByTs_prop hfb.symm
          have hlt1 : a.timestamp_ms < b.timestamp_ms :=
            h1.1 b.timestamp_ms (List.mem_map.mpr ⟨b, hbmem.1, rfl⟩)
          have hlt2 : b.timestamp_ms < a.timestamp_ms :=
            h2.1 a.timestamp_ms (List.mem_map.mpr ⟨a, hamem.1, rfl⟩)
          exact absurd (hlt1.trans hlt2) (lt_irrefl _)
      subst hab
      have htails : ∀ t, findByTs l1 t = findByTs l2 t := by
        intro t
        by_cases ht : t = a.timestamp_ms
        · rw [ht, (findByTs_eq_none_iff l1 a.timestamp_ms).mpr
            (fun c hc => ne_of_gt (h1.1 c.timestamp_ms (List.mem_map.mpr ⟨c, hc, rfl⟩))),
            (findByTs_eq_none_iff l2 a.timestamp_ms).mpr
            (fun c hc => ne_of_gt (h2.1 c.timestamp_ms (List.mem_map.mpr ⟨c, hc, rfl⟩)))]
        · have := hf t
          rwa [findByTs_cons, findByTs_cons, if_neg (fun hh => ht hh.symm),
            if_neg (fun hh => ht hh.symm)] at this
      rw [ih h1.2 h2.2 htails]

end CoinHistory

namespace CoinHistory

/-- C1 (amended): for candle lists whose timestamps are pairwise distinct
(the stored-series invariant, which both fetchers guarantee for their
output), `merge_candle_lists` returns exactly the candles whose timestamp
set is the union of the two inputs' timestamp sets, with the newly fetched
candle winning every timestamp collision, the result strictly increasing in
timestamp, and merging the same new batch twice equal to merging it once.
The distinctness hypotheses cannot be dropped: see the counterexample. -/
theorem merge_candle_lists_spec (existing new : List Candle)
    (he : tsNodup existing) (hn : tsNodup new) :
    (∀ t : Int, t ∈ (mergeCandleLists existing new).map (fun c => c.timestamp_ms) ↔
        t ∈ new.map (fun c => c.timestamp_ms) ∨
          t ∈ existing.map (fun c => c.timestamp_ms))
    ∧ (∀ c ∈ new, findByTs (mergeCandleLists existing new) c.timestamp_ms = some c)
    ∧ (∀ c ∈ existing, c.timestamp_ms ∉ new.map (fun c => c.timestamp_ms) →
        findByTs (mergeCandleLists existing new) c.timestamp_ms = some c)
    ∧ (∀ c ∈ mergeCandleLists existing new, c ∈ new ∨ c ∈ existing)
    ∧ ((mergeCandleLists existing new).map (fun c => c.timestamp_ms)).Pairwise (· < ·)
    ∧ mergeCandleLists (mergeCandleLists existing new) new
        = mergeCandleLists existing new := by
  refine ⟨?_, ?_, ?_, ?_, merge_ts_pairwise existing new he hn, ?_⟩
  · intro t
    rw [← findByTs_isSome_iff, ← findByTs_isSome_iff, ← findByTs_isSome_iff,
      findByTs_merge existing new he hn t, optOr_isSome]
    simp
  · intro c hc
    rw [findByTs_merge existing new he hn,
      (findByTs_eq_some_iff hn c.timestamp_ms c).mpr ⟨hc, rfl⟩]
    rfl
  · intro c hc hnot
    rw [findByTs_merge existing new he hn,
      (findByTs_eq_none_iff new c.timestamp_ms).mpr
        (fun d hd hdt => hnot (hdt ▸ List.mem_map.mpr ⟨d, hd, rfl⟩)),
      optOr_none_left, (findByTs_eq_some_iff he c.timestamp_ms c).mpr ⟨hc, rfl⟩]
  · intro c hc
    have hfind := (findByTs_eq_some_iff (tsNodup_merge existing new he hn)
      c.timestamp_ms c).mpr ⟨hc, rfl⟩
    rw [findByTs_merge existing new he hn] at hfind
    rcases hfn : findByTs new c.timestamp_ms with _ | d
    · rw [hfn, optOr_none_left] at hfind
      exact Or.inr (findByTs_prop hfind).1
    · rw [hfn] at hfind
      have : d = c := Option.some_injective _ hfind
      exact Or.inl (this ▸ (findByTs_prop hfn).1)
  · have hm := tsNodup_merge existing new he hn
    apply eq_of_strict_sorted_findByTs
      (merge_ts_pairwise (mergeCandleLists existing new) new hm hn)
      (merge_ts_pairwise existing new he hn)
    intro t
    rw [findByTs_merge (mergeCandleLists existing new) new hm hn t,
      findByTs_merge existing new he hn t, optOr_self_absorb]

/-- C1 witness: the amended statement applied to a concrete pair of
strictly-increasing candle lists with one timestamp collision. -/
theorem merge_candle_lists_spec_witness :
    mergeCandleLists
        (mergeCandleLists
          [buildCandle 1 "1" "1" "1" "1" "1", buildCandle 2 "2" "2" "2" "2" "2"]
          [buildCandle 2 "9" "9" "9" "9" "9", buildCandle 3 "3" "3" "3" "3" "3"])
        [buildCandle 2 "9" "9" "9" "9" "9", buildCandle 3 "3" "3" "3" "3" "3"]
      = mergeCandleLists
          [buildCandle 1 "1" "1" "1" "1" "1", buildCandle 2 "2" "2" "2" "2" "2"]
          [buildCandle 2 "9" "9" "9" "9" "9", buildCandle 3 "3" "3" "3" "3" "3"] :=
  (merge_candle_lists_spec
    [buildCandle 1 "1" "1" "1" "1" "1", buildCandle 2 "2" "2" "2" "2" "2"]
    [buildCandle 2 "9" "9" "9" "9" "9", buildCandle 3 "3" "3" "3" "3" "3"]
    (by unfold tsNodup; decide) (by unfold tsNodup; decide)).2.2.2.2.2

/-- C1 counterexample: on a newly fetched list that repeats a timestamp and
an empty existing list, `merge_candle_lists` returns duplicated timestamps
(so the output is not strictly increasing) and merging the same batch a
second time gives a different, deduplicated result — the claim's universal
statement over every pair of candle lists is false. -/
theorem merge_candle_lists_not_idempotent_on_duplicate_timestamps :
    mergeCandleLists
        (mergeCandleLists []
          [buildCandle 0 "1" "1" "1" "1" "1", buildCandle 0 "2" "2" "2" "2" "2"])
        [buildCandle 0 "1" "1" "1" "1" "1", buildCandle 0 "2" "2" "2" "2" "2"]
      ≠ mergeCandleLists []
          [buildCandle 0 "1" "1" "1" "1" "1", buildCandle 0 "2" "2" "2" "2" "2"]
    ∧ ¬ ((mergeCandleLists []
          [buildCandle 0 "1" "1" "1" "1" "1",
            buildCandle 0 "2" "2" "2" "2" "2"]).map
            (fun c => c.timestamp_ms)).Pairwise (· < ·) := by
  decide

end CoinHistory

namespace CoinHistory

theorem dictInsert_ne_nil {α β : Type} [DecidableEq α] (d : List (α × β)) (k : α) (v : β) :
    dictInsert d k v ≠ [] := by
  cases d with
  | nil => simp [dictInsert]
  | cons p rest =>
    rw [dictInsert]
    by_cases h : p.1 = k <;> simp [h]

theorem dictUpdate_ne_nil {α β : Type} [DecidableEq α] {d : List (α × β)}
    (l : List (α × β)) (hd : d ≠ []) : dictUpdate d l ≠ [] := by
  induction l generalizing d with
  | nil => exact hd
  | cons p l ih =>
    have step : dictUpdate d (p :: l) = dictUpdate (dictInsert d p.1 p.2) l := rfl
    rw [step]
    exact ih (dictInsert_ne_nil d p.1 p.2)

theorem dictInsert_fresh {α β : Type} [DecidableEq α] {d : List (α × β)} {k : α} (v : β)
    (hk : k ∉ dictKeys d) : dictInsert d k v = d ++ [(k, v)] := by
  induction d with
  | nil => rfl
  | cons p d ih =>
    rw [dictKeys_cons, List.mem_cons] at hk
    push_neg at hk
    rw [dictInsert, if_neg (fun hh => hk.1 hh.symm), List.cons_append, ih hk.2]

theorem processVenue_key {inc : Bool} {ex : List (String × ExchangeEntry)} {f : FetcherSpec}
    {kv : String × ExchangeEntry} (h : processVenue inc ex f = some kv) :
    kv.1 = f.name := by
  unfold processVenue at h
  rcases hres : f.resolveResult with _ | m <;> rw [hres] at h
  · cases h
  · rcases hfr : f.fetchResult (sinceFor inc (dictLookup ex f.name)) with e | candles <;>
      simp only [hfr] at h
    · rcases inc <;> rcases hex : dictLookup ex f.name with _ | en <;>
        simp only [hex] at h
      · cases h
      · cases h
      · cases h
      · rw [← Option.some_injective _ h]
    · split at h
      · cases h
      · rw [← Option.some_injective _ h]

theorem harvest_foldl (inc : Bool) (ex : List (String × ExchangeEntry))
    (fs : List FetcherSpec) (acc : List (String × ExchangeEntry))
    (hfresh : ∀ g ∈ fs, g.name ∉ dictKeys acc)
    (hnd : (fs.map (fun f => f.name)).Nodup) :
    fs.foldl
      (fun res f =>
        match processVenue inc ex f with
        | some kv => dictInsert res kv.1 kv.2
        | none => res)
      acc
      = acc ++ fs.filterMap (processVenue inc ex) := by
  induction fs generalizing acc with
  | nil => simp
  | cons f fs ih =>
    rw [List.map_cons, List.nodup_cons] at hnd
    rw [List.foldl_cons, List.filterMap_cons]
    rcases hpv : processVenue inc ex f with _ | kv
    · simp only [hpv]
      exact ih acc (fun g hg => hfresh g (List.mem_cons_of_mem _ hg)) hnd.2
    · simp only [hpv]
      have hkey := processVenue_key hpv
      have hfreshf : kv.1 ∉ dictKeys acc := by
        rw [hkey]
        exact hfresh f (List.mem_cons_self _ _)
      rw [dictInsert_fresh kv.2 hfreshf,
        ih (acc ++ [kv]) ?_ hnd.2, List.append_assoc, List.singleton_append]
      intro g hg
      rw [dictKeys, List.map_append, List.mem_append]
      push_neg
      refine ⟨hfresh g (List.mem_cons_of_mem _ hg), ?_⟩
      simp only [List.map_cons, List.map_nil, List.mem_singleton]
      rw [hkey]
      intro he
      exact hnd.1 (he ▸ List.mem_map.mpr ⟨g, hg, rfl⟩)

theorem harvestCoin_eq_filterMap (fs : List FetcherSpec)
    (ex : List (String × ExchangeEntry)) (inc : Bool)
    (hnd : (fs.map (fun f => f.name)).Nodup) :
    harvestCoin fs ex inc = fs.filterMap (processVenue inc ex) := by
  unfold harvestCoin
  rw [harvest_foldl inc ex fs [] (fun g _ => List.not_mem_nil g.name) hnd,
    List.nil_append]

theorem dictKeys_filterMap_processVenue (inc : Bool) (ex : List (String × ExchangeEntry))
    (fs : List FetcherSpec) :
    ∀ k ∈ dictKeys (fs.filterMap (processVenue inc ex)), k ∈ fs.map (fun f => f.name) := by
  induction fs with
  | nil => simp [dictKeys]
  | cons f fs ih =>
    intro k hk
    rw [List.filterMap_cons] at hk
    rcases hpv : processVenue inc ex f with _ | kv
    · rw [hpv] at hk
      exact List.mem_cons_of_mem _ (ih k hk)
    · rw [hpv, dictKeys_cons] at hk
      rcases List.mem_cons.mp hk with h | h
      · rw [List.map_cons]
        exact h ▸ (processVenue_key hpv) ▸ List.mem_cons_self _ _
      · exact List.mem_cons_of_mem _ (ih k h)

theorem dictLookup_harvest (fs : List FetcherSpec) (ex : List (String × ExchangeEntry))
    (inc : Bool) (hnd : (fs.map (fun f => f.name)).Nodup) {g : FetcherSpec} (hg : g ∈ fs) :
    dictLookup (harvestCoin fs ex inc) g.name
      = (processVenue inc ex g).map (fun kv => kv.2) := by
  rw [harvestCoin_eq_filterMap fs ex inc hnd]
  induction fs with
  | nil => cases hg
  | cons f fs ih =>
    rw [List.map_cons, List.nodup_cons] at hnd
    rw [List.filterMap_cons]
    rcases List.mem_cons.mp hg with hgf | hgfs
    · rw [hgf]
      rcases hpv : processVenue inc ex f with _ | kv
      · simp only [hpv, Option.map_none']
        rw [dictLookup_eq_none_iff]
        intro hmem
        exact hnd.1 (dictKeys_filterMap_processVenue inc ex fs f.name hmem)
      · simp only [hpv, Option.map_some']
        rw [dictLookup_cons, if_pos (processVenue_key hpv)]
    · rcases hpv : processVenue inc ex f with _ | kv
      · exact ih hnd.2 hgfs
      · have hne : ¬kv.1 = g.name := by
          rw [processVenue_key hpv]
          intro hh
          refine hnd.1 ?_
          rw [hh]
          exact List.mem_map.mpr ⟨g, hgfs, rfl⟩
        rw [dictLookup_cons, if_neg hne]
        exact ih hnd.2 hgfs

theorem processVenue_fetch_error (ex : List (String × ExchangeEntry)) (f : FetcherSpec)
    (m : MarketRef) (hres : f.resolveResult = some m)
    (hfail : f.fetchResult (sinceFor true (dictLookup ex f.name)) = .error ()) :
    processVenue true ex f = (dictLookup ex f.name).map (fun e => (f.name, e)) := by
  unfold processVenue
  rw [hres]
  simp only [hfail]
  rcases dictLookup ex f.name with _ | e <;> rfl

end CoinHistory

namespace CoinHistory

/-- C2: in incremental mode, when a venue's candle fetch fails after a
successful market resolution, `harvest_coin` emits exactly the prior stored
entry for that venue when one exists and omits the venue otherwise; and
every venue's output entry is a function of that venue's own fetcher and the
prior record alone, so one venue's failure is invisible to the others. -/
theorem harvest_fetch_failure_policy
    (fetchers : List FetcherSpec) (existing : List (String × ExchangeEntry))
    (f : FetcherSpec) (m : MarketRef)
    (hnd : (fetchers.map (fun f => f.name)).Nodup)
    (hmem : f ∈ fetchers)
    (hres : f.resolveResult = some m)
    (hfail : f.fetchResult (sinceFor true (dictLookup existing f.name)) = .error ()) :
    (∀ e, dictLookup existing f.name = some e →
        dictLookup (harvestCoin fetchers existing true) f.name = some e)
    ∧ (dictLookup existing f.name = none →
        dictLookup (harvestCoin fetchers existing true) f.name = none)
    ∧ (∀ g ∈ fetchers, dictLookup (harvestCoin fetchers existing true) g.name
        = (processVenue true existing g).map (fun kv => kv.2)) := by
  have hlk : ∀ g ∈ fetchers, dictLookup (harvestCoin fetchers existing true) g.name
      = (processVenue true existing g).map (fun kv => kv.2) :=
    fun g hg => dictLookup_harvest fetchers existing true hnd hg
  refine ⟨?_, ?_, hlk⟩
  · intro e he
    rw [hlk f hmem, processVenue_fetch_error existing f m hres hfail, he]
    rfl
  · intro he
    rw [hlk f hmem, processVenue_fetch_error existing f m hres hfail, he]
    rfl

/-- C2 witness: a single venue whose fetch always fails, with a prior stored
entry, yields exactly that entry. -/
theorem harvest_fetch_failure_policy_witness :
    dictLookup
        (harvestCoin
          [⟨"binance", some ⟨"binance", "BTC", "USDT", "BTC/USDT", "BTCUSDT"⟩,
            fun _ => .error ()⟩]
          [("binance", ⟨"BTC/USDT", "USDT", 1, [buildCandle 5 "1" "1" "1" "1" "1"]⟩)]
          true)
        "binance"
      = some ⟨"BTC/USDT", "USDT", 1, [buildCandle 5 "1" "1" "1" "1" "1"]⟩ :=
  (harvest_fetch_failure_policy
    [⟨"binance", some ⟨"binance", "BTC", "USDT", "BTC/USDT", "BTCUSDT"⟩,
      fun _ => .error ()⟩]
    [("binance", ⟨"BTC/USDT", "USDT", 1, [buildCandle 5 "1" "1" "1" "1" "1"]⟩)]
    ⟨"binance", some ⟨"binance", "BTC", "USDT", "BTC/USDT", "BTCUSDT"⟩,
      fun _ => .error ()⟩
    ⟨"binance", "BTC", "USDT", "BTC/USDT", "BTCUSDT"⟩
    (by decide) (List.mem_singleton.mpr rfl) rfl rfl).1
    ⟨"BTC/USDT", "USDT", 1, [buildCandle 5 "1" "1" "1" "1" "1"]⟩ rfl

/-- C3: in incremental mode, for an asset with a non-empty pre-existing
record, the per-coin step of `main` never deletes the record or removes a
venue: with zero harvested venues the stored exchanges mapping is exactly
the prior one, in general the stored mapping looks up to the harvested entry
when present and to the prior entry otherwise, and every previously present
venue is still present (the stored venue set is a superset). -/
theorem main_incremental_preserves_record
    (existing harvested : List (String × ExchangeEntry))
    (hne : existing ≠ [])
    (hnd : (dictKeys harvested).Nodup) :
    (harvested = [] → storedAfterRun existing harvested false = existing)
    ∧ (∀ k, dictLookup (storedAfterRun existing harvested false) k
        = optOr (dictLookup harvested k) (dictLookup existing k))
    ∧ (∀ k, k ∈ dictKeys existing → k ∈ dictKeys (storedAfterRun existing harvested false)) := by
  by_cases hh : harvested = []
  · subst hh
    have hsf : storedAfterRun existing [] false = existing := by
      unfold storedAfterRun finalMarkets
      simp [List.isEmpty_iff, hne]
    refine ⟨fun _ => hsf, fun k => ?_, fun k hk => ?_⟩
    · rw [hsf, dictLookup_nil, optOr_none_left]
    · rw [hsf]
      exact hk
  · have hsf : storedAfterRun existing harvested false = dictUpdate existing harvested := by
      unfold storedAfterRun finalMarkets
      simp [List.isEmpty_iff, hne, hh, dictUpdate_ne_nil harvested hne]
    have hlook : ∀ k, dictLookup (storedAfterRun existing harvested false) k
        = optOr (dictLookup harvested k) (dictLookup existing k) := by
      intro k
      rw [hsf, dictLookup_dictUpdate,
        dictLookup_perm hnd (List.reverse_perm harvested).symm k]
    refine ⟨fun he => absurd he hh, hlook, fun k hk => ?_⟩
    rw [← dictLookup_isSome_iff] at hk ⊢
    rw [hlook k, optOr_isSome, hk, Bool.or_true]

/-- C3 witness: the preservation property at a concrete record with one
prior venue and one freshly harvested venue. -/
theorem main_incremental_preserves_record_witness :
    dictLookup
        (storedAfterRun
          [("binance", ⟨"BTC/USDT", "USDT", 1, [buildCandle 5 "1" "1" "1" "1" "1"]⟩)]
          [("okx", ⟨"BTC/USDT", "USDT", 1, [buildCandle 6 "2" "2" "2" "2" "2"]⟩)]
          false)
        "binance"
      = optOr
          (dictLookup
            [("okx", ⟨"BTC/USDT", "USDT", 1, [buildCandle 6 "2" "2" "2" "2" "2"]⟩)]
            "binance")
          (dictLookup
            [("binance", ⟨"BTC/USDT", "USDT", 1, [buildCandle 5 "1" "1" "1" "1" "1"]⟩)]
            "binance") :=
  (main_incremental_preserves_record
    [("binance", ⟨"BTC/USDT", "USDT", 1, [buildCandle 5 "1" "1" "1" "1" "1"]⟩)]
    [("okx", ⟨"BTC/USDT", "USDT", 1, [buildCandle 6 "2" "2" "2" "2" "2"]⟩)]
    (by decide) (by decide)).2.1 "binance"

end CoinHistory

namespace CoinHistory

theorem charListLE_refl (l : List Char) : charListLE l l = true := by
  induction l with
  | nil => rfl
  | cons a l ih =>
    rw [charListLE, if_neg (lt_irrefl a.toNat), if_neg (lt_irrefl a.toNat)]
    exact ih

theorem charListLE_total (a b : List Char) :
    charListLE a b = true ∨ charListLE b a = true := by
  induction a generalizing b with
  | nil => exact Or.inl rfl
  | cons x xs ih =>
    cases b with
    | nil => exact Or.inr rfl
    | cons y ys =>
      by_cases hxy : x.toNat < y.toNat
      · refine Or.inl ?_
        rw [charListLE, if_pos hxy]
      · by_cases hyx : y.toNat < x.toNat
        · refine Or.inr ?_
          rw [charListLE, if_pos hyx]
        · rcases ih ys with h | h
          · refine Or.inl ?_
            rw [charListLE, if_neg hxy, if_neg hyx]
            exact h
          · refine Or.inr ?_
            rw [charListLE, if_neg hyx, if_neg hxy]
            exact h

theorem charListLE_trans :
    ∀ (a b c : List Char), charListLE a b = true → charListLE b c = true →
      charListLE a c = true
  | [], _, _, _, _ => rfl
  | _ :: _, [], _, h1, _ => by cases h1
  | _ :: _, _ :: _, [], _, h2 => by cases h2
  | a :: as, b :: bs, c :: cs, h1, h2 => by
    rw [charListLE] at h1 h2 ⊢
    by_cases hab : a.toNat < b.toNat
    · by_cases hbc : b.toNat < c.toNat
      · rw [if_pos (by omega : a.toNat < c.toNat)]
      · rw [if_neg hbc] at h2
        by_cases hcb : c.toNat < b.toNat
        · rw [if_pos hcb] at h2
          cases h2
        · rw [if_pos (by omega : a.toNat < c.toNat)]
    · rw [if_neg hab] at h1
      by_cases hba : b.toNat < a.toNat
      · rw [if_pos hba] at h1
        cases h1
      · rw [if_neg hba] at h1
        by_cases hbc : b.toNat < c.toNat
        · rw [if_pos (by omega : a.toNat < c.toNat)]
        · rw [if_neg hbc] at h2
          by_cases hcb : c.toNat < b.toNat
          · rw [if_pos hcb] at h2
            cases h2
          · rw [if_neg hcb] at h2
            rw [if_neg (by omega : ¬a.toNat < c.toNat),
              if_neg (by omega : ¬c.toNat < a.toNat)]
            exact charListLE_trans as bs cs h1 h2

theorem marketLE_refl (prio : List String) (a : MarketRef) : marketLE prio a a :=
  Or.inr ⟨rfl, charListLE_refl a.symbol.data⟩

theorem marketLE_total (prio : List String) (a b : MarketRef) :
    marketLE prio a b ∨ marketLE prio b a := by
  rcases Nat.lt_trichotomy (priorityIndex prio a.quote) (priorityIndex prio b.quote) with
    h | h | h
  · exact Or.inl (Or.inl h)
  · rcases charListLE_total a.symbol.data b.symbol.data with hs | hs
    · exact Or.inl (Or.inr ⟨h, hs⟩)
    · exact Or.inr (Or.inr ⟨h.symm, hs⟩)
  · exact Or.inr (Or.inl h)

theorem marketLE_trans (prio : List String) (a b c : MarketRef)
    (hab : marketLE prio a b) (hbc : marketLE prio b c) : marketLE prio a c := by
  rcases hab with h1 | ⟨h1, hs1⟩
  · rcases hbc with h2 | ⟨h2, _⟩
    · exact Or.inl (h1.trans h2)
    · exact Or.inl (h2 ▸ h1)
  · rcases hbc with h2 | ⟨h2, hs2⟩
    · exact Or.inl (h1 ▸ h2)
    · exact Or.inr ⟨h1.trans h2, charListLE_trans _ _ _ hs1 hs2⟩

/-- C4: market resolution fails exactly when no catalog pair has the asset
as its base; otherwise it returns a pair with that base that is minimal for
the venue's quote-priority-then-symbol order, where a quote absent from the
priority list sorts after every listed quote; and on the spec's concrete
example with priority `[USDT, USDC]` the `BTC/USDT` pair is selected. -/
theorem resolve_market_spec (prio : List String) (catalog : List MarketRef) (base : String)
    (hbase : upperStr base = base) :
    (resolveMarket prio catalog base = none ↔ ∀ r ∈ catalog, r.base ≠ base)
    ∧ (∀ r, resolveMarket prio catalog base = some r →
        r ∈ catalog ∧ r.base = base ∧ ∀ q ∈ catalog, q.base = base → marketLE prio r q)
    ∧ (∀ q q2, q ∉ prio → q2 ∈ prio → priorityIndex prio q2 < priorityIndex prio q)
    ∧ resolveMarket ["USDT", "USDC"]
        [⟨"binance", "BTC", "USDC", "BTC/USDC", "BTCUSDC"⟩,
          ⟨"binance", "BTC", "USDT", "BTC/USDT", "BTCUSDT"⟩] "BTC"
      = some ⟨"binance", "BTC", "USDT", "BTC/USDT", "BTCUSDT"⟩ := by
  haveI : IsTotal MarketRef (marketLE prio) := ⟨marketLE_total prio⟩
  haveI : IsTrans MarketRef (marketLE prio) := ⟨marketLE_trans prio⟩
  have hperm := List.perm_insertionSort (marketLE prio)
    (catalog.filter (fun r => decide (r.base = upperStr base)))
  refine ⟨?_, ?_, ?_, by decide⟩
  · rw [resolveMarket, List.head?_eq_none_iff]
    constructor
    · intro h
      have hnil : catalog.filter (fun r => decide (r.base = upperStr base)) = [] :=
        (h ▸ hperm).symm.eq_nil
      intro r hr hrb
      have := List.filter_eq_nil_iff.mp hnil r hr
      rw [hbase] at this
      simp [hrb] at this
    · intro h
      have hnil : catalog.filter (fun r => decide (r.base = upperStr base)) = [] := by
        rw [List.filter_eq_nil_iff]
        intro r hr
        rw [hbase]
        simp [h r hr]
      rw [hnil]
      rfl
  · intro r hr
    rw [resolveMarket] at hr
    rcases hsort : List.insertionSort (marketLE prio)
        (catalog.filter (fun r => decide (r.base = upperStr base))) with _ | ⟨r0, tail⟩
    · rw [hsort] at hr
      cases hr
    · rw [hsort] at hr
      have hr0 : r0 = r := Option.some_injective _ hr
      subst hr0
      have hmem : r0 ∈ catalog.filter (fun r => decide (r.base = upperStr base)) :=
        hperm.mem_iff.mp (hsort ▸ List.mem_cons_self _ _)
      have hmem2 := List.mem_filter.mp hmem
      have hbaseq : r0.base = base := by
        have := hmem2.2
        rwa [hbase, decide_eq_true_eq] at this
      refine ⟨hmem2.1, hbaseq, fun q hq hqb => ?_⟩
      have hqmem : q ∈ catalog.filter (fun r => decide (r.base = upperStr base)) :=
        List.mem_filter.mpr ⟨hq, by rw [hbase, decide_eq_true_eq]; exact hqb⟩
      have hqsort := hperm.mem_iff.mpr hqmem
      rw [hsort] at hqsort
      rcases List.mem_cons.mp hqsort with h | h
      · rw [h]
        exact marketLE_refl prio r0
      · have hsorted := List.sorted_insertionSort (marketLE prio)
          (catalog.filter (fun r => decide (r.base = upperStr base)))
        rw [hsort, List.sorted_cons] at hsorted
        exact hsorted.1 q h
  · intro q q2 hq hq2
    rw [priorityIndex, priorityIndex, List.indexOf_eq_length.mpr hq]
    exact List.indexOf_lt_length.mpr hq2

/-- C4 witness: the theorem applied at the spec's concrete priority list and
catalog, extracting that `BTC/USDT` is selected over `BTC/USDC`. -/
theorem resolve_market_spec_witness :
    resolveMarket ["USDT", "USDC"]
        [⟨"binance", "BTC", "USDC", "BTC/USDC", "BTCUSDC"⟩,
          ⟨"binance", "BTC", "USDT", "BTC/USDT", "BTCUSDT"⟩] "BTC"
      = some ⟨"binance", "BTC", "USDT", "BTC/USDT", "BTCUSDT"⟩ :=
  (resolve_market_spec ["USDT", "USDC"]
    [⟨"binance", "BTC", "USDC", "BTC/USDC", "BTCUSDC"⟩,
      ⟨"binance", "BTC", "USDT", "BTC/USDT", "BTCUSDT"⟩] "BTC" (by decide)).2.2.2

end CoinHistory

namespace CoinHistory

theorem acceptRow_inv {st : List (Int × Candle) × Option Int × Nat} {r : RawRow}
    (h : fetchInv st.1 st.2.1) : fetchInv (acceptRow st r).1 (acceptRow st r).2.1 := by
  obtain ⟨d, lastTs, n⟩ := st
  rcases lastTs with _ | l
  · have hd : d = [] := by
      cases d with
      | nil => rfl
      | cons p rest =>
        rcases h.2.2 p.1 (List.mem_cons_self _ _) with ⟨l, hl, _⟩
        cases hl
    subst hd
    refine ⟨List.nodup_singleton _, ?_, ?_⟩
    · intro p hp
      rcases List.mem_singleton.mp hp with rfl
      rfl
    · intro k hk
      rcases List.mem_singleton.mp hk with rfl
      exact ⟨r.ts, rfl, le_refl _⟩
  · show fetchInv (acceptRow (d, some l, n) r).1 (acceptRow (d, some l, n) r).2.1
    simp only [acceptRow]
    by_cases hts : r.ts ≤ l
    · rw [if_pos hts]
      exact h
    · rw [if_neg hts]
      have hfresh : r.ts ∉ dictKeys d := by
        intro hmem
        rcases h.2.2 r.ts hmem with ⟨l2, hl2, hle⟩
        cases hl2
        exact hts hle
      refine ⟨dictKeys_insert_nodup _ _ h.1, pairsWF_insert h.2.1 rfl, ?_⟩
      intro k hk
      rw [dictKeys_insert, if_neg hfresh, List.mem_append, List.mem_singleton] at hk
      rcases hk with hk | rfl
      · rcases h.2.2 k hk with ⟨l2, hl2, hle⟩
        cases hl2
        exact ⟨r.ts, rfl, le_trans hle (le_of_not_le hts)⟩
      · exact ⟨r.ts, rfl, le_refl _⟩

theorem acceptRow_preserves {st : List (Int × Candle) × Option Int × Nat} {r : RawRow}
    {k : Int} {v : Candle} (h : fetchInv st.1 st.2.1)
    (hk : dictLookup st.1 k = some v) : dictLookup (acceptRow st r).1 k = some v := by
  obtain ⟨d, lastTs, n⟩ := st
  rcases lastTs with _ | l
  · have hd : d = [] := by
      cases d with
      | nil => rfl
      | cons p rest =>
        rcases h.2.2 p.1 (List.mem_cons_self _ _) with ⟨l, hl, _⟩
        cases hl
    subst hd
    cases hk
  · show dictLookup (acceptRow (d, some l, n) r).1 k = some v
    simp only [acceptRow]
    by_cases hts : r.ts ≤ l
    · rw [if_pos hts]
      exact hk
    · rw [if_neg hts]
      have hfresh : r.ts ∉ dictKeys d := by
        intro hmem
        rcases h.2.2 r.ts hmem with ⟨l2, hl2, hle⟩
        cases hl2
        exact hts hle
      show dictLookup (dictInsert d r.ts _) k = some v
      rw [dictInsert_fresh _ hfresh, dictLookup_append, hk]
      rfl

theorem foldl_acceptRow_inv (batch : List RawRow) :
    ∀ (st : List (Int × Candle) × Option Int × Nat), fetchInv st.1 st.2.1 →
      fetchInv (batch.foldl acceptRow st).1 (batch.foldl acceptRow st).2.1 := by
  induction batch with
  | nil => exact fun st h => h
  | cons r batch ih => exact fun st h => ih (acceptRow st r) (acceptRow_inv h)

theorem foldl_acceptRow_preserves (batch : List RawRow) :
    ∀ (st : List (Int × Candle) × Option Int × Nat) (k : Int) (v : Candle),
      fetchInv st.1 st.2.1 → dictLookup st.1 k = some v →
      dictLookup (batch.foldl acceptRow st).1 k = some v := by
  induction batch with
  | nil => exact fun st k v _ hk => hk
  | cons r batch ih =>
    exact fun st k v h hk =>
      ih (acceptRow st r) k v (acceptRow_inv h) (acceptRow_preserves h hk)

theorem processBatch_inv {d : List (Int × Candle)} {lastTs : Option Int}
    (batch : List RawRow) (h : fetchInv d lastTs) :
    fetchInv (processBatch d lastTs batch).1 (processBatch d lastTs batch).2.1 :=
  foldl_acceptRow_inv batch (d, lastTs, 0) h

theorem fetchLoop_ok_inv (page : Option Int → Except Unit (List RawRow)) (limit : Nat) :
    ∀ (fuel : Nat) (st : FetchState) (d : List (Int × Candle)),
      fetchInv st.candles st.lastTs → fetchLoop page limit fuel st = some (.ok d) →
      (dictKeys d).Nodup ∧ ∀ p ∈ d, p.2.timestamp_ms = p.1 := by
  intro fuel
  induction fuel with
  | zero => intro st d _ h; cases h
  | succ fuel ih =>
    intro st d hinv h
    rw [fetchLoop] at h
    rcases hpage : page st.since with e | batch <;> simp only [hpage] at h
    · exact absurd h (by simp)
    · by_cases hbe : batch.isEmpty
      · rw [if_pos hbe] at h
        obtain rfl := Except.ok.inj (Option.some_injective _ h)
        exact ⟨hinv.1, hinv.2.1⟩
      · rw [if_neg hbe] at h
        by_cases hstop : batch.length < limit ∨ (processBatch st.candles st.lastTs batch).2.2 = 0
        · rw [if_pos hstop] at h
          obtain rfl := Except.ok.inj (Option.some_injective _ h)
          have hpb := processBatch_inv batch hinv
          exact ⟨hpb.1, hpb.2.1⟩
        · rw [if_neg hstop] at h
          exact ih _ d (processBatch_inv batch hinv) h

theorem fetchLoop_preserves (page : Option Int → Except Unit (List RawRow)) (limit : Nat) :
    ∀ (fuel : Nat) (st : FetchState) (d : List (Int × Candle)) (k : Int) (v : Candle),
      fetchInv st.candles st.lastTs → dictLookup st.candles k = some v →
      fetchLoop page limit fuel st = some (.ok d) → dictLookup d k = some v := by
  intro fuel
  induction fuel with
  | zero => intro st d k v _ _ h; cases h
  | succ fuel ih =>
    intro st d k v hinv hk h
    rw [fetchLoop] at h
    rcases hpage : page st.since with e | batch <;> simp only [hpage] at h
    · exact absurd h (by simp)
    · by_cases hbe : batch.isEmpty
      · rw [if_pos hbe] at h
        obtain rfl := Except.ok.inj (Option.some_injective _ h)
        exact hk
      · rw [if_neg hbe] at h
        by_cases hstop : batch.length < limit ∨ (processBatch st.candles st.lastTs batch).2.2 = 0
        · rw [if_pos hstop] at h
          obtain rfl := Except.ok.inj (Option.some_injective _ h)
          exact foldl_acceptRow_preserves batch (st.candles, st.lastTs, 0) k v hinv hk
        · rw [if_neg hstop] at h
          exact ih _ d k v (processBatch_inv batch hinv)
            (foldl_acceptRow_preserves batch (st.candles, st.lastTs, 0) k v hinv hk) h

theorem sortedPairs_map_snd_pairwise (m : List (Int × Candle))
    (hnd : (dictKeys m).Nodup) (hWF : ∀ p ∈ m, p.2.timestamp_ms = p.1) :
    ((orderedFromDict m).map (fun c => c.timestamp_ms)).Pairwise (· < ·) := by
  have hperm := List.perm_insertionSort pairLE m
  have hWFs : ∀ p ∈ List.insertionSort pairLE m, p.2.timestamp_ms = p.1 :=
    fun p hp => hWF p (hperm.mem_iff.mp hp)
  have hmapeq : (List.insertionSort pairLE m).map
      ((fun c => c.timestamp_ms) ∘ (fun p : Int × Candle => p.2))
      = (List.insertionSort pairLE m).map (fun p : Int × Candle => p.1) :=
    List.map_congr_left (fun p hp => hWFs p hp)
  rw [orderedFromDict, List.map_map, hmapeq]
  have hle : ((List.insertionSort pairLE m).map (fun p => p.1)).Pairwise (· ≤ ·) :=
    List.pairwise_map.mpr (List.sorted_insertionSort pairLE m)
  have hnd2 : ((List.insertionSort pairLE m).map (fun p => p.1)).Nodup :=
    ((hperm.map (fun p : Int × Candle => p.1)).nodup_iff).mpr hnd
  exact pairwise_lt_of_le_nodup hle hnd2

end CoinHistory

namespace CoinHistory

theorem processBatch_no_new_points {d : List (Int × Candle)} {l : Int} {n : Nat}
    (batch : List RawRow) (hall : ∀ r ∈ batch, r.ts ≤ l) :
    batch.foldl acceptRow (d, some l, n) = (d, some l, n) := by
  induction batch with
  | nil => rfl
  | cons r batch ih =>
    rw [List.foldl_cons]
    have hstep : acceptRow (d, some l, n) r = (d, some l, n) := by
      simp only [acceptRow]
      rw [if_pos (hall r (List.mem_cons_self _ _))]
    rw [hstep]
    exact ih (fun r2 hr2 => hall r2 (List.mem_cons_of_mem _ hr2))

/-- C8 (amended): the CCXT pagination loop stops as soon as a page comes
back with fewer rows than the requested limit or contributes zero
timestamps newer than the last accepted one — in particular a venue that
repeats its last page (every row timestamp at or below `last_ts`)
contributes zero new points and terminates the loop; the final list is
strictly increasing in timestamp; and within one fetch an accepted candle
is never replaced: a row whose timestamp does not exceed `last_ts` is
skipped, so on a timestamp collision the EARLIER-seen entry is kept (the
claim's later-seen-wins reading is refuted by the counterexample). -/
theorem ccxt_pagination_spec :
    (∀ (page : Option Int → Except Unit (List RawRow)) (limit fuel : Nat)
        (st : FetchState) (batch : List RawRow),
        page st.since = .ok batch → ¬batch.isEmpty →
        (batch.length < limit ∨ (processBatch st.candles st.lastTs batch).2.2 = 0) →
        fetchLoop page limit (fuel + 1) st
          = some (.ok (processBatch st.candles st.lastTs batch).1))
    ∧ (∀ (st : FetchState) (l : Int) (batch : List RawRow), st.lastTs = some l →
        (∀ r ∈ batch, r.ts ≤ l) → (processBatch st.candles st.lastTs batch).2.2 = 0)
    ∧ (∀ (page : Option Int → Except Unit (List RawRow)) (limit fuel : Nat)
        (sinceMs : Option Int) (l : List Candle),
        ccxtFetchCandles page limit sinceMs fuel = some (.ok l) →
        (l.map (fun c => c.timestamp_ms)).Pairwise (· < ·))
    ∧ (∀ (page : Option Int → Except Unit (List RawRow)) (limit fuel : Nat)
        (st : FetchState) (d : List (Int × Candle)) (k : Int) (v : Candle),
        fetchInv st.candles st.lastTs → dictLookup st.candles k = some v →
        fetchLoop page limit fuel st = some (.ok d) → dictLookup d k = some v) := by
  refine ⟨?_, ?_, ?_, fun page limit fuel st d k v hinv hk h =>
    fetchLoop_preserves page limit fuel st d k v hinv hk h⟩
  · intro page limit fuel st batch hpage hbe hstop
    rw [fetchLoop]
    simp only [hpage]
    rw [if_neg hbe, if_pos hstop]
  · intro st l batch hlast hall
    rw [processBatch, hlast, processBatch_no_new_points batch hall]
  · intro page limit fuel sinceMs l h
    rw [ccxtFetchCandles] at h
    rcases hloop : fetchLoop page limit fuel ⟨[], none, sinceMs⟩ with _ | r <;>
      rw [hloop] at h
    · cases h
    · rcases r with e | d
      · rw [Option.map_some'] at h
        exact absurd (Option.some_injective _ h) (by simp)
      · rw [Option.map_some'] at h
        dsimp only at h
        have hinv0 : fetchInv ([] : List (Int × Candle)) none :=
          ⟨List.nodup_nil, fun p hp => absurd hp (List.not_mem_nil p),
            fun k hk => absurd hk (List.not_mem_nil k)⟩
        have hfacts := fetchLoop_ok_inv page limit fuel ⟨[], none, sinceMs⟩ d hinv0 hloop
        have hord := Option.some_injective _ h
        by_cases hemp : (orderedFromDict d).isEmpty
        · rw [if_pos hemp] at hord
          cases hord
        · rw [if_neg hemp] at hord
          obtain rfl := Except.ok.inj hord
          exact sortedPairs_map_snd_pairwise d hfacts.1 hfacts.2

/-- C8 witness: a venue that repeats its last page (timestamps at or below
the last accepted one) contributes zero new points, which is the loop's
termination condition. -/
theorem ccxt_pagination_spec_witness :
    (processBatch [(5, buildCandle 5 "1" "1" "1" "1" "1")] (some 5)
        [⟨5, "1", "1", "1", "1", "1"⟩, ⟨4, "0", "0", "0", "0", "0"⟩]).2.2 = 0 :=
  ccxt_pagination_spec.2.1
    ⟨[(5, buildCandle 5 "1" "1" "1" "1" "1")], some 5, none⟩ 5
    [⟨5, "1", "1", "1", "1", "1"⟩, ⟨4, "0", "0", "0", "0", "0"⟩] rfl (by decide)

/-- C8 counterexample: a page carrying two rows with the same timestamp —
the fetch keeps the EARLIER-seen row's values, not the later-seen ones, so
the claim that a timestamp collision keeps the later-seen entry is false. -/
theorem ccxt_dedup_keeps_earlier_entry :
    ccxtFetchCandles
        (fun _ => .ok [⟨0, "1", "1", "1", "1", "1"⟩, ⟨0, "2", "2", "2", "2", "2"⟩])
        1000 none 2
      = some (.ok [buildCandle 0 "1" "1" "1" "1" "1"])
    ∧ buildCandle 0 "1" "1" "1" "1" "1" ≠ buildCandle 0 "2" "2" "2" "2" "2" := by
  constructor
  · rfl
  · decide

/-- C10: both venue clients' candle fetches, whenever they return within
their fuel, either raise a fetch error or deliver a non-empty candle list:
an empty collected dict is converted into an error by the final guard. -/
theorem fetchers_nonempty_or_error :
    (∀ (page : Option Int → Except Unit (List RawRow)) (limit fuel : Nat)
        (sinceMs : Option Int) (r : Except Unit (List Candle)),
        ccxtFetchCandles page limit sinceMs fuel = some r →
        r = .error () ∨ ∃ l, r = .ok l ∧ l ≠ [])
    ∧ (∀ (page : Int → Int → Except Unit (List CbRow)) (now : Int)
        (sinceMs : Option Int) (defaultStartMs : Int) (fuel : Nat)
        (r : Except Unit (List Candle)),
        coinbaseFetchCandles page now sinceMs defaultStartMs fuel = some r →
        r = .error () ∨ ∃ l, r = .ok l ∧ l ≠ []) := by
  constructor
  · intro page limit fuel sinceMs r h
    rw [ccxtFetchCandles] at h
    rcases hloop : fetchLoop page limit fuel ⟨[], none, sinceMs⟩ with _ | r0 <;>
      rw [hloop] at h
    · cases h
    · rcases r0 with e | d
      · rw [Option.map_some'] at h
        obtain rfl := Option.some_injective _ h
        rcases e
        exact Or.inl rfl
      · rw [Option.map_some'] at h
        dsimp only at h
        by_cases hemp : (orderedFromDict d).isEmpty
        · rw [if_pos hemp] at h
          obtain rfl := Option.some_injective _ h
          exact Or.inl rfl
        · rw [if_neg hemp] at h
          obtain rfl := Option.some_injective _ h
          exact Or.inr ⟨orderedFromDict d, rfl,
            fun hnil => hemp (by rw [hnil]; rfl)⟩
  · intro page now sinceMs defaultStartMs fuel r h
    rw [coinbaseFetchCandles] at h
    rcases hloop : cbLoop page now fuel (cbStart sinceMs defaultStartMs) [] with _ | r0 <;>
      rw [hloop] at h
    · cases h
    · rcases r0 with e | d
      · rw [Option.map_some'] at h
        obtain rfl := Option.some_injective _ h
        rcases e
        exact Or.inl rfl
      · rw [Option.map_some'] at h
        dsimp only at h
        by_cases hemp : (orderedFromDict d).isEmpty
        · rw [if_pos hemp] at h
          obtain rfl := Option.some_injective _ h
          exact Or.inl rfl
        · rw [if_neg hemp] at h
          obtain rfl := Option.some_injective _ h
          exact Or.inr ⟨orderedFromDict d, rfl,
            fun hnil => hemp (by rw [hnil]; rfl)⟩

/-- C10 witness: a venue page returning zero rows leads to the fetch-error
outcome, never to an empty success. -/
theorem fetchers_nonempty_or_error_witness :
    (Except.error () : Except Unit (List Candle)) = .error ()
      ∨ ∃ l, (Except.error () : Except Unit (List Candle)) = .ok l ∧ l ≠ [] :=
  fetchers_nonempty_or_error.1 (fun _ => .ok []) 1000 1 none (.error ()) rfl

end CoinHistory


namespace QuantInsights

theorem logReturnsAux_error_iff (logF : ℚ → ℚ) (ps : List (ℚ × ℚ)) :
    logReturnsAux logF ps = .error () ↔ ∃ p ∈ ps, 0 < p.1 ∧ p.2 ≤ 0 := by
  induction ps with
  | nil => simp [logReturnsAux]
  | cons p rest ih =>
    rw [logReturnsAux]
    by_cases h1 : 0 < p.1
    · by_cases h2 : p.2 ≤ 0
      · rw [if_pos h1, if_pos h2]
        constructor
        · intro _
          exact ⟨p, List.mem_cons_self _ _, h1, h2⟩
        · intro _
          rfl
      · rw [if_pos h1, if_neg h2]
        rcases hrec : logReturnsAux logF rest with e | l
        · cases e
          have hex := ih.mp hrec
          constructor
          · intro _
            rcases hex with ⟨q, hq, hc⟩
            exact ⟨q, List.mem_cons_of_mem _ hq, hc⟩
          · intro _
            rfl
        · constructor
          · intro hcontra
            cases hcontra
          · rintro ⟨q, hq, hc⟩
            rcases List.mem_cons.mp hq with hq2 | hq2
            · rw [hq2] at hc
              exact absurd hc.2 h2
            · have hre := ih.mpr ⟨q, hq2, hc⟩
              rw [hre] at hrec
              cases hrec
    · rw [if_neg h1, ih]
      constructor
      · rintro ⟨q, hq, hc⟩
        exact ⟨q, List.mem_cons_of_mem _ hq, hc⟩
      · rintro ⟨q, hq, hc⟩
        rcases List.mem_cons.mp hq with hq2 | hq2
        · rw [hq2] at hc
          exact absurd hc.1 h1
        · exact ⟨q, hq2, hc⟩

theorem logReturnsAux_ok (logF : ℚ → ℚ) (ps : List (ℚ × ℚ)) (l : List ℚ)
    (h : logReturnsAux logF ps = .ok l) :
    l = (ps.filter (fun p => decide (0 < p.1) && decide (0 < p.2))).map
      (fun p => logF (p.2 / p.1)) := by
  induction ps generalizing l with
  | nil =>
    rw [logReturnsAux] at h
    rw [← Except.ok.inj h]
    rfl
  | cons p rest ih =>
    rw [logReturnsAux] at h
    by_cases h1 : 0 < p.1
    · by_cases h2 : p.2 ≤ 0
      · rw [if_pos h1, if_pos h2] at h
        cases h
      · rw [if_pos h1, if_neg h2] at h
        rcases hrec : logReturnsAux logF rest with e | l2 <;> rw [hrec] at h
        · cases h
        · have hl := Except.ok.inj h
          have h2p : 0 < p.2 := lt_of_not_le h2
          rw [← hl, List.filter_cons, if_pos (by simp [h1, h2p]), List.map_cons,
            ih l2 hrec]
    · rw [if_neg h1] at h
      rw [ih l h, List.filter_cons, if_neg (by simp [h1])]

theorem computeSeriesMetrics_ok_none_iff (logF sqrtF : ℚ → ℚ) (candles : List MCandle) :
    computeSeriesMetrics logF sqrtF candles = .ok none ↔
      candles.length < 2 ∨ (candles.map (fun c => c.close)).headD 0 ≤ 0 ∨
        (candles.map (fun c => c.close)).getLastD 0 ≤ 0 := by
  rw [computeSeriesMetrics]
  by_cases hlen : candles.length < 2
  · rw [if_pos hlen]
    exact ⟨fun _ => Or.inl hlen, fun _ => rfl⟩
  · rw [if_neg hlen]
    by_cases hguard : (candles.map (fun c => c.close)).headD 0 ≤ 0 ∨
        (candles.map (fun c => c.close)).getLastD 0 ≤ 0
    · rw [if_pos hguard]
      exact ⟨fun _ => Or.inr hguard, fun _ => rfl⟩
    · rw [if_neg hguard]
      rcases hlog : logReturnsE logF (candles.map (fun c => c.close)) with e | lr <;>
        rw [hlog] <;> dsimp only
      · constructor
        · intro hcontra
          cases hcontra
        · rintro (h | h)
          · exact absurd h hlen
          · exact absurd h hguard
      · constructor
        · intro hcontra
          exact absurd (Except.ok.inj hcontra) (by simp)
        · rintro (h | h)
          · exact absurd h hlen
          · exact absurd h hguard

theorem computeSeriesMetrics_error_iff (logF sqrtF : ℚ → ℚ) (candles : List MCandle) :
    computeSeriesMetrics logF sqrtF candles = .error () ↔
      ¬(candles.length < 2 ∨ (candles.map (fun c => c.close)).headD 0 ≤ 0 ∨
          (candles.map (fun c => c.close)).getLastD 0 ≤ 0)
      ∧ ∃ p ∈ adjacentPairs (candles.map (fun c => c.close)), 0 < p.1 ∧ p.2 ≤ 0 := by
  rw [computeSeriesMetrics]
  by_cases hlen : candles.length < 2
  · rw [if_pos hlen]
    constructor
    · intro hcontra
      cases hcontra
    · rintro ⟨hno, -⟩
      exact absurd (Or.inl hlen) hno
  · rw [if_neg hlen]
    by_cases hguard : (candles.map (fun c => c.close)).headD 0 ≤ 0 ∨
        (candles.map (fun c => c.close)).getLastD 0 ≤ 0
    · rw [if_pos hguard]
      constructor
      · intro hcontra
        cases hcontra
      · rintro ⟨hno, -⟩
        exact absurd (Or.inr hguard) hno
    · rw [if_neg hguard]
      rcases hlog : logReturnsE logF (candles.map (fun c => c.close)) with e | lr <;>
        rw [hlog] <;> dsimp only
      · cases e
        rw [logReturnsE, logReturnsAux_error_iff] at hlog
        constructor
        · intro _
          refine ⟨?_, hlog⟩
          rintro (h | h)
          · exact hlen h
          · exact hguard h
        · intro _
          rfl
      · constructor
        · intro hcontra
          cases hcontra
        · rintro ⟨-, hex⟩
          have herr := (logReturnsAux_error_iff logF _).mpr hex
          rw [logReturnsE] at hlog
          rw [herr] at hlog
          cases hlog

theorem computeSeriesMetrics_ok_some (logF sqrtF : ℚ → ℚ) (candles : List MCandle)
    (m : SeriesMetrics) (h : computeSeriesMetrics logF sqrtF candles = .ok (some m)) :
    ¬candles.length < 2
    ∧ ¬((candles.map (fun c => c.close)).headD 0 ≤ 0 ∨
        (candles.map (fun c => c.close)).getLastD 0 ≤ 0)
    ∧ m = { listing_date := (candles.headD ⟨0, "", 0⟩).timestamp_iso
            last_date := (candles.getLastD ⟨0, "", 0⟩).timestamp_iso
            days := candles.length
            cum_return := (candles.map (fun c => c.close)).getLastD 0
              / (candles.map (fun c => c.close)).headD 0 - 1
            max_drawdown := maxDrawdownOf (candles.map (fun c => c.close))
              ((candles.map (fun c => c.close)).headD 0)
            volatility :=
              if (((adjacentPairs (candles.map (fun c => c.close))).filter
                  (fun p => decide (0 < p.1) && decide (0 < p.2))).map
                  (fun p => logF (p.2 / p.1))).isEmpty
              then 0
              else sqrtF (pvariance (((adjacentPairs
                  (candles.map (fun c => c.close))).filter
                  (fun p => decide (0 < p.1) && decide (0 < p.2))).map
                  (fun p => logF (p.2 / p.1)))) * sqrtF 365 } := by
  rw [computeSeriesMetrics] at h
  by_cases hlen : candles.length < 2
  · rw [if_pos hlen] at h
    exact absurd (Except.ok.inj h) (by simp)
  · rw [if_neg hlen] at h
    by_cases hguard : (candles.map (fun c => c.close)).headD 0 ≤ 0 ∨
        (candles.map (fun c => c.close)).getLastD 0 ≤ 0
    · rw [if_pos hguard] at h
      exact absurd (Except.ok.inj h) (by simp)
    · rw [if_neg hguard] at h
      rcases hlog : logReturnsE logF (candles.map (fun c => c.close)) with e | lr <;>
        rw [hlog] at h
      · cases h
      · refine ⟨hlen, hguard, ?_⟩
        have hm := Option.some_injective _ (Except.ok.inj h)
        rw [← hm]
        have hlr := logReturnsAux_ok logF _ lr hlog
        rw [hlr]

end QuantInsights

namespace QuantInsights

/-- C5 (amended): `compute_series_metrics` returns empty exactly when there
are fewer than two candles or the first or last close is non-positive; a log
return is taken for exactly the adjacent pairs whose EARLIER close is
strictly positive, so on a guard-passing list containing a pair with
positive earlier close and non-positive later close the computation raises
an uncaught math-domain error (aborting the run) instead of omitting the
asset; in every non-raising computation the pairs taken are exactly those
with both closes strictly positive, and the annualized volatility is the
population standard deviation of those log returns times √365, or 0 when
there is no valid log return. -/
theorem compute_series_metrics_guard_spec (logF sqrtF : ℚ → ℚ)
    (candles : List MCandle) :
    (computeSeriesMetrics logF sqrtF candles = .ok none ↔
      candles.length < 2 ∨ (candles.map (fun c => c.close)).headD 0 ≤ 0 ∨
        (candles.map (fun c => c.close)).getLastD 0 ≤ 0)
    ∧ (computeSeriesMetrics logF sqrtF candles = .error () ↔
      ¬(candles.length < 2 ∨ (candles.map (fun c => c.close)).headD 0 ≤ 0 ∨
          (candles.map (fun c => c.close)).getLastD 0 ≤ 0)
      ∧ ∃ p ∈ adjacentPairs (candles.map (fun c => c.close)), 0 < p.1 ∧ p.2 ≤ 0)
    ∧ (∀ m, computeSeriesMetrics logF sqrtF candles = .ok (some m) →
      m.volatility =
        if (((adjacentPairs (candles.map (fun c => c.close))).filter
            (fun p => decide (0 < p.1) && decide (0 < p.2))).map
            (fun p => logF (p.2 / p.1))).isEmpty
        then 0
        else sqrtF (pvariance (((adjacentPairs (candles.map (fun c => c.close))).filter
            (fun p => decide (0 < p.1) && decide (0 < p.2))).map
            (fun p => logF (p.2 / p.1)))) * sqrtF 365) := by
  refine ⟨computeSeriesMetrics_ok_none_iff logF sqrtF candles,
    computeSeriesMetrics_error_iff logF sqrtF candles, ?_⟩
  intro m h
  rw [(computeSeriesMetrics_ok_some logF sqrtF candles m h).2.2]

/-- C5 witness: the guard applied to an empty candle list yields the empty
result. -/
theorem compute_series_metrics_guard_spec_witness :
    computeSeriesMetrics (fun _ => (0 : ℚ)) (fun _ => (0 : ℚ)) [] = .ok none :=
  (compute_series_metrics_guard_spec (fun _ => (0 : ℚ)) (fun _ => (0 : ℚ)) []).1.mpr
    (Or.inl (by decide))

/-- C5 counterexample: closes `[1, -1, 1]` pass the guard (two or more
candles, positive first and last close) yet the computation raises, because
the comprehension filter tests only the earlier close of each pair before
calling `math.log` — so the claim that every guard-passing list totally
computes metrics is false. -/
theorem compute_series_metrics_crashes_on_nonpositive_interior_close :
    ¬(([⟨0, "d0", 1⟩, ⟨1, "d1", -1⟩, ⟨2, "d2", 1⟩] : List MCandle).length < 2 ∨
        (([⟨0, "d0", 1⟩, ⟨1, "d1", -1⟩, ⟨2, "d2", 1⟩] : List MCandle).map
          (fun c => c.close)).headD 0 ≤ 0 ∨
        (([⟨0, "d0", 1⟩, ⟨1, "d1", -1⟩, ⟨2, "d2", 1⟩] : List MCandle).map
          (fun c => c.close)).getLastD 0 ≤ 0)
    ∧ computeSeriesMetrics (fun _ => (0 : ℚ)) (fun _ => (0 : ℚ))
        [⟨0, "d0", 1⟩, ⟨1, "d1", -1⟩, ⟨2, "d2", 1⟩] = .error () := by
  constructor
  · push_neg
    refine ⟨by norm_num, by norm_num, by norm_num⟩
  · rw [computeSeriesMetrics_error_iff]
    constructor
    · push_neg
      refine ⟨by norm_num, by norm_num, by norm_num⟩
    · exact ⟨(1, -1), by norm_num [adjacentPairs], by norm_num⟩

theorem drawdown_foldl (l : List ℚ) :
    ∀ (mp dd0 : ℚ), 0 < mp →
      (l.foldl drawdownStep (mp, dd0)).2 = List.foldl min dd0 (ddValuesAux mp l) := by
  induction l with
  | nil => intro mp dd0 _; rfl
  | cons p rest ih =>
    intro mp dd0 hmp
    have hmp2 : 0 < max mp p := lt_of_lt_of_le hmp (le_max_left _ _)
    have hstep : drawdownStep (mp, dd0) p = (max mp p, min dd0 (p / max mp p - 1)) := by
      simp only [drawdownStep]
      rw [if_pos hmp2]
    rw [List.foldl_cons, hstep, ddValuesAux, List.foldl_cons]
    exact ih (max mp p) _ hmp2

theorem foldl_min_le_init (xs : List ℚ) : ∀ (a : ℚ), xs.foldl min a ≤ a := by
  induction xs with
  | nil => intro a; exact le_refl a
  | cons x xs ih =>
    intro a
    rw [List.foldl_cons]
    exact le_trans (ih (min a x)) (min_le_left _ _)

theorem foldl_min_le_mem (xs : List ℚ) :
    ∀ (a : ℚ), ∀ x ∈ xs, xs.foldl min a ≤ x := by
  induction xs with
  | nil => intro a x hx; cases hx
  | cons y xs ih =>
    intro a x hx
    rw [List.foldl_cons]
    rcases List.mem_cons.mp hx with rfl | hx2
    · exact le_trans (foldl_min_le_init xs (min a x)) (min_le_right _ _)
    · exact ih (min a y) x hx2

theorem foldl_min_mem (xs : List ℚ) : ∀ (a : ℚ), xs.foldl min a ∈ a :: xs := by
  induction xs with
  | nil => intro a; exact List.mem_singleton.mpr rfl
  | cons x xs ih =>
    intro a
    rw [List.foldl_cons]
    rcases List.mem_cons.mp (ih (min a x)) with h | h
    · rcases min_choice a x with hm | hm
      · rw [h, hm]
        exact List.mem_cons_self _ _
      · rw [h, hm]
        exact List.mem_cons_of_mem _ (List.mem_cons_self _ _)
    · exact List.mem_cons_of_mem _ (List.mem_cons_of_mem _ h)

theorem maxScanAux_le (mp : ℚ) (l : List ℚ) : ∀ x ∈ maxScanAux mp l, mp ≤ x := by
  induction l generalizing mp with
  | nil => intro x hx; cases hx
  | cons p rest ih =>
    intro x hx
    rw [maxScanAux] at hx
    rcases List.mem_cons.mp hx with rfl | hx2
    · exact le_max_left _ _
    · exact le_trans (le_max_left _ _) (ih (max mp p) x hx2)

theorem maxScanAux_chain (mp : ℚ) (l : List ℚ) :
    (maxScanAux mp l).Chain' (· ≤ ·) := by
  induction l generalizing mp with
  | nil => exact List.chain'_nil
  | cons p rest ih =>
    rw [maxScanAux, List.chain'_cons']
    refine ⟨fun b hb => ?_, ih (max mp p)⟩
    exact maxScanAux_le (max mp p) rest b (List.mem_of_mem_head? hb)

end QuantInsights

namespace QuantInsights

/-- C6: whenever `compute_series_metrics` returns metrics, the cumulative
return is last close over first close minus one, and the max drawdown is the
minimum over the series of (price / running-maximum-so-far − 1), where the
running maximum starts at the first close and is non-decreasing; on closes
`[100, 150]` the result has cumulative return `1/2` and max drawdown `0`,
and on closes `[100, 50, 100]` it has max drawdown `-1/2` and cumulative
return `0`. -/
theorem series_return_drawdown_spec :
    (∀ (logF sqrtF : ℚ → ℚ) (candles : List MCandle) (m : SeriesMetrics),
        computeSeriesMetrics logF sqrtF candles = .ok (some m) →
        m.cum_return = (candles.map (fun c => c.close)).getLastD 0
            / (candles.map (fun c => c.close)).headD 0 - 1
        ∧ m.max_drawdown ∈ ddValues ((candles.map (fun c => c.close)).headD 0)
            (candles.map (fun c => c.close))
        ∧ (∀ x ∈ ddValues ((candles.map (fun c => c.close)).headD 0)
            (candles.map (fun c => c.close)), m.max_drawdown ≤ x)
        ∧ (maxScan ((candles.map (fun c => c.close)).headD 0)
            (candles.map (fun c => c.close))).Chain' (· ≤ ·))
    ∧ computeSeriesMetrics (fun _ => (0 : ℚ)) (fun _ => (0 : ℚ))
        [⟨0, "d0", 100⟩, ⟨1, "d1", 150⟩]
      = .ok (some ⟨"d0", "d1", 2, 1/2, 0, 0⟩)
    ∧ computeSeriesMetrics (fun _ => (0 : ℚ)) (fun _ => (0 : ℚ))
        [⟨0, "d0", 100⟩, ⟨1, "d1", 50⟩, ⟨2, "d2", 100⟩]
      = .ok (some ⟨"d0", "d2", 3, 0, -(1/2), 0⟩) := by
  refine ⟨?_, ?_, ?_⟩
  · intro logF sqrtF candles m h
    obtain ⟨hlen, hguard, hm⟩ := computeSeriesMetrics_ok_some logF sqrtF candles m h
    push_neg at hguard
    cases candles with
    | nil => exact absurd (by norm_num) hlen
    | cons c cr =>
      have hfirst : ((c :: cr).map (fun c => c.close)).headD 0 = c.close := rfl
      have hpos : 0 < c.close := by
        have hg := hguard.1
        rw [hfirst] at hg
        exact hg
      have hfold : maxDrawdownOf ((c :: cr).map (fun c => c.close)) c.close
          = List.foldl min 0 (ddValuesAux c.close ((c :: cr).map (fun c => c.close))) := by
        rw [maxDrawdownOf]
        exact drawdown_foldl _ c.close 0 hpos
      have hddhead : ddValuesAux c.close ((c :: cr).map (fun c => c.close))
          = 0 :: ddValuesAux c.close (cr.map (fun c => c.close)) := by
        rw [List.map_cons, ddValuesAux, max_self, div_self (ne_of_gt hpos)]
        norm_num
      have hcum : m.cum_return = ((c :: cr).map (fun c => c.close)).getLastD 0
          / ((c :: cr).map (fun c => c.close)).headD 0 - 1 := by
        rw [hm]
      have hmd : m.max_drawdown = maxDrawdownOf ((c :: cr).map (fun c => c.close))
          (((c :: cr).map (fun c => c.close)).headD 0) := by
        rw [hm]
      refine ⟨hcum, ?_, ?_, ?_⟩
      · rw [hmd, ddValues, hfirst, hfold, hddhead]
        rcases List.mem_cons.mp
            (foldl_min_mem (0 :: ddValuesAux c.close (cr.map (fun c => c.close))) 0)
          with h0 | h0
        · rw [h0]
          exact List.mem_cons_self _ _
        · exact h0
      · intro x hx
        rw [ddValues, hfirst] at hx
        rw [hmd, hfirst, hfold]
        exact foldl_min_le_mem _ 0 x hx
      · exact maxScanAux_chain _ _
  · norm_num [computeSeriesMetrics, logReturnsE, logReturnsAux, adjacentPairs,
      pvariance, maxDrawdownOf, drawdownStep]
  · norm_num [computeSeriesMetrics, logReturnsE, logReturnsAux, adjacentPairs,
      pvariance, maxDrawdownOf, drawdownStep]

/-- C6 witness: the theorem's concrete two-candle example. -/
theorem series_return_drawdown_spec_witness :
    computeSeriesMetrics (fun _ => (0 : ℚ)) (fun _ => (0 : ℚ))
        [⟨0, "d0", 100⟩, ⟨1, "d1", 150⟩]
      = .ok (some ⟨"d0", "d1", 2, 1/2, 0, 0⟩) :=
  series_return_drawdown_spec.2.1

end QuantInsights

namespace QuantInsights

theorem spreadStep_eq (ps : List (Int × ℚ)) (acc : List ℚ × List ℚ) (t : Int) :
    spreadStep ps acc t
      = (acc.1 ++ (relOf ps t).toList, acc.2 ++ (absOf ps t).toList) := by
  rw [spreadStep, relOf, absOf]
  by_cases hlen : (closesAt ps t).length < 2
  · rw [if_pos hlen, if_pos hlen, if_pos hlen]
    simp
  · rw [if_neg hlen, if_neg hlen, if_neg hlen]
    dsimp only
    by_cases hmid : 0 < (if listMax (closesAt ps t) + listMin (closesAt ps t) ≠ 0
        then (listMax (closesAt ps t) + listMin (closesAt ps t)) / 2 else 0)
    · rw [if_pos hmid, if_pos hmid]
      simp
    · rw [if_neg hmid, if_neg hmid]
      simp

theorem spread_foldl (ps : List (Int × ℚ)) (keys : List Int) :
    ∀ (acc : List ℚ × List ℚ),
      keys.foldl (spreadStep ps) acc
        = (acc.1 ++ keys.filterMap (relOf ps), acc.2 ++ keys.filterMap (absOf ps)) := by
  induction keys with
  | nil => intro acc; simp
  | cons t keys ih =>
    intro acc
    rw [List.foldl_cons, spreadStep_eq, ih, List.filterMap_cons, List.filterMap_cons]
    rcases hrel : relOf ps t with _ | r <;> rcases habs : absOf ps t with _ | a <;>
      simp [List.append_assoc]

theorem spreadLists_eq (exchanges : List (String × ExchangeSeries)) :
    spreadLists exchanges
      = ((insertionKeys ((allTsClosePairs exchanges).map (fun p => p.1))).filterMap
          (relOf (allTsClosePairs exchanges)),
        (insertionKeys ((allTsClosePairs exchanges).map (fun p => p.1))).filterMap
          (absOf (allTsClosePairs exchanges))) := by
  rw [spreadLists, spread_foldl]
  simp

/-- C7 (amended): `compute_cross_exchange_spread` groups closes by exact
timestamp across venues; for a timestamp with at least two closes the
relative spread is `(max−min)/midpoint` — contributed only when the
midpoint `(max+min)/2` (forced to `0` when `max+min = 0`) is positive — and
the absolute spread `max−min` is contributed for every such timestamp; the
result is the median of each list, and it is `(null, null)` exactly when NO
timestamp contributes a relative spread, i.e. every timestamp group has
fewer than two closes or a non-positive midpoint — which can happen even
when a timestamp has two reporting venues (see the counterexample), so the
claim's "exactly when no timestamp has at least 2 reporting venues" is
false.  On one matching timestamp with closes `{100, 110}` it returns
`(10/105, 10)`. -/
theorem cross_exchange_spread_spec :
    (∀ exchanges : List (String × ExchangeSeries),
        (computeCrossExchangeSpread exchanges = (none, none) ↔
          ∀ t ∈ insertionKeys ((allTsClosePairs exchanges).map (fun p => p.1)),
            relOf (allTsClosePairs exchanges) t = none))
    ∧ (∀ (exchanges : List (String × ExchangeSeries)) (r a : ℚ),
        computeCrossExchangeSpread exchanges = (some r, some a) →
        r = medianQ ((insertionKeys ((allTsClosePairs exchanges).map
              (fun p => p.1))).filterMap (relOf (allTsClosePairs exchanges)))
        ∧ a = medianQ ((insertionKeys ((allTsClosePairs exchanges).map
              (fun p => p.1))).filterMap (absOf (allTsClosePairs exchanges))))
    ∧ computeCrossExchangeSpread
        [("a", ⟨[⟨0, "d0", 100⟩]⟩), ("b", ⟨[⟨0, "d0", 110⟩]⟩)]
      = (some (10/105), some 10) := by
  refine ⟨?_, ?_, ?_⟩
  · intro exchanges
    rw [computeCrossExchangeSpread, spreadLists_eq]
    by_cases hemp : ((insertionKeys ((allTsClosePairs exchanges).map
        (fun p => p.1))).filterMap (relOf (allTsClosePairs exchanges))).isEmpty
    · rw [if_pos hemp]
      rw [List.isEmpty_iff, List.filterMap_eq_nil_iff] at hemp
      exact ⟨fun _ => hemp, fun _ => rfl⟩
    · rw [if_neg hemp]
      rw [List.isEmpty_iff] at hemp
      constructor
      · intro hcontra
        have h1 := congrArg Prod.fst hcontra
        simp at h1
      · intro hall
        exact absurd (List.filterMap_eq_nil_iff.mpr hall) hemp
  · intro exchanges r a h
    rw [computeCrossExchangeSpread, spreadLists_eq] at h
    by_cases hemp : ((insertionKeys ((allTsClosePairs exchanges).map
        (fun p => p.1))).filterMap (relOf (allTsClosePairs exchanges))).isEmpty
    · rw [if_pos hemp] at h
      have := congrArg Prod.fst h
      simp at this
    · rw [if_neg hemp] at h
      have h1 := congrArg Prod.fst h
      have h2 := congrArg Prod.snd h
      simp only at h1 h2
      exact ⟨(Option.some_injective _ h1).symm, (Option.some_injective _ h2).symm⟩
  · norm_num [computeCrossExchangeSpread, spreadLists, allTsClosePairs, insertionKeys,
      insertionKeysAux, spreadStep, closesAt, listMax, listMin, medianQ,
      List.insertionSort, List.orderedInsert]

/-- C7 witness: the spec's concrete two-venue example, extracted from the
theorem. -/
theorem cross_exchange_spread_spec_witness :
    computeCrossExchangeSpread
        [("a", ⟨[⟨0, "d0", 100⟩]⟩), ("b", ⟨[⟨0, "d0", 110⟩]⟩)]
      = (some (10/105), some 10) :=
  cross_exchange_spread_spec.2.2

/-- C7 counterexample: two venues both report close `0` at the same
timestamp, so a timestamp with two reporting venues exists, yet the result
is `(null, null)` because the midpoint is `0` and no relative spread is
collected — refuting the claim's "exactly when no timestamp has at least 2
reporting venues". -/
theorem cross_exchange_spread_null_with_two_venues :
    (closesAt (allTsClosePairs
        [("a", ⟨[⟨0, "d0", 0⟩]⟩), ("b", ⟨[⟨0, "d0", 0⟩]⟩)]) 0).length = 2
    ∧ computeCrossExchangeSpread
        [("a", ⟨[⟨0, "d0", 0⟩]⟩), ("b", ⟨[⟨0, "d0", 0⟩]⟩)] = (none, none) := by
  constructor
  · norm_num [allTsClosePairs, closesAt]
  · norm_num [computeCrossExchangeSpread, spreadLists, allTsClosePairs, insertionKeys,
      insertionKeysAux, spreadStep, closesAt, listMax, listMin]

end QuantInsights

namespace QuantInsights

/-- C9 (amended): whenever the aggregation run succeeds, the global
cumulative-return, drawdown and volatility medians are computed over ALL
usable coins — including those whose cross-venue spread is null — while the
global spread median is computed over exactly the coins with a non-null
spread, which must be a non-empty set; an empty catalog or zero usable
coins fails the run, and additionally the run crashes (a `StatisticsError`
from the median of an empty sequence) when every usable coin's spread is
null, so the claim that the run fails only on zero usable assets or an
unreadable catalog is false (see the counterexample).  The concrete mixed
scenario shows a null-spread coin counted in the return median but absent
from the spread median. -/
theorem insights_aggregation_spec :
    (∀ (logF sqrtF : ℚ → ℚ) (coins : List String) (hist : List (String × Payload))
        (pc : List (String × CoinMetrics)) (s : Summary),
        perCoinRun logF sqrtF coins hist = .ok pc →
        mainModel logF sqrtF coins hist = .ok s →
        s.median_cum_return
            = medianQ ((pc.map (fun kv => kv.2)).map (fun m => m.series.cum_return))
        ∧ s.median_drawdown
            = medianQ ((pc.map (fun kv => kv.2)).map (fun m => m.series.max_drawdown))
        ∧ s.median_volatility
            = medianQ ((pc.map (fun kv => kv.2)).map (fun m => m.series.volatility))
        ∧ s.median_spread
            = medianQ ((pc.map (fun kv => kv.2)).filterMap (fun m => m.median_rel_spread))
        ∧ (pc.map (fun kv => kv.2)).filterMap (fun m => m.median_rel_spread) ≠ []
        ∧ pc ≠ [])
    ∧ (∀ (logF sqrtF : ℚ → ℚ) (hist : List (String × Payload)),
        mainModel logF sqrtF [] hist = .error .noCoins)
    ∧ (∀ (logF sqrtF : ℚ → ℚ) (coins : List String) (hist : List (String × Payload)),
        coins ≠ [] → perCoinRun logF sqrtF coins hist = .ok [] →
        mainModel logF sqrtF coins hist = .error .noMetrics)
    ∧ (∀ (logF sqrtF : ℚ → ℚ) (coins : List String) (hist : List (String × Payload))
        (pc : List (String × CoinMetrics)),
        coins ≠ [] → perCoinRun logF sqrtF coins hist = .ok pc → pc ≠ [] →
        (pc.map (fun kv => kv.2)).filterMap (fun m => m.median_rel_spread) = [] →
        mainModel logF sqrtF coins hist = .error .statsError)
    ∧ mainModel (fun _ => (0 : ℚ)) (fun _ => (0 : ℚ)) ["AAA", "BBB"]
        [("AAA", ⟨[("binance", ⟨[⟨0, "a0", 100⟩, ⟨1, "a1", 150⟩]⟩)]⟩),
          ("BBB", ⟨[("binance", ⟨[⟨0, "b0", 100⟩, ⟨1, "b1", 120⟩]⟩),
            ("coinbase", ⟨[⟨0, "c0", 100⟩, ⟨1, "c1", 110⟩]⟩)]⟩)]
      = .ok ⟨2, 7/20, 0, 0, 1/23⟩ := by
  refine ⟨?_, ?_, ?_, ?_, ?_⟩
  · intro logF sqrtF coins hist pc s hpc hmain
    rw [mainModel] at hmain
    by_cases hc : coins.isEmpty
    · rw [if_pos hc] at hmain
      cases hmain
    · rw [if_neg hc, hpc] at hmain
      dsimp only at hmain
      by_cases hms : (pc.map (fun kv => kv.2)).isEmpty
      · rw [if_pos hms] at hmain
        cases hmain
      · rw [if_neg hms] at hmain
        by_cases hsp : ((pc.map (fun kv => kv.2)).filterMap
            (fun m => m.median_rel_spread)).isEmpty
        · rw [if_pos hsp] at hmain
          cases hmain
        · rw [if_neg hsp] at hmain
          have hs := Except.ok.inj hmain
          rw [← hs]
          rw [List.isEmpty_iff] at hms hsp
          refine ⟨rfl, rfl, rfl, rfl, hsp, ?_⟩
          intro hnil
          exact hms (by rw [hnil]; rfl)
  · intro logF sqrtF hist
    rfl
  · intro logF sqrtF coins hist hc hpc
    rw [mainModel, if_neg (fun he => hc (List.isEmpty_iff.mp he)), hpc]
    rfl
  · intro logF sqrtF coins hist pc hc hpc hpcne hsp
    rw [mainModel, if_neg (fun he => hc (List.isEmpty_iff.mp he)), hpc]
    dsimp only
    rw [if_neg (fun he => hpcne (by
        have := List.isEmpty_iff.mp he
        cases pc with
        | nil => rfl
        | cons p rest => cases this)),
      if_pos (List.isEmpty_iff.mpr hsp)]
  · norm_num +decide [mainModel, perCoinRun, buildCoinMetrics, computeSeriesMetrics,
      logReturnsE, logReturnsAux, adjacentPairs, pvariance, maxDrawdownOf,
      drawdownStep, computeCrossExchangeSpread, spreadLists, spreadStep,
      allTsClosePairs, insertionKeys, insertionKeysAux, closesAt, listMax, listMin,
      medianQ, List.insertionSort, List.orderedInsert, exLookup,
      PRIMARY_EXCHANGE_ORDER, List.find?, Option.map]

/-- C9 witness: the mixed scenario — one single-venue coin with null spread
and one dual-venue coin — aggregates with the null-spread coin included in
the return median (median of both cumulative returns) and excluded from the
spread median. -/
theorem insights_aggregation_spec_witness :
    mainModel (fun _ => (0 : ℚ)) (fun _ => (0 : ℚ)) ["AAA", "BBB"]
        [("AAA", ⟨[("binance", ⟨[⟨0, "a0", 100⟩, ⟨1, "a1", 150⟩]⟩)]⟩),
          ("BBB", ⟨[("binance", ⟨[⟨0, "b0", 100⟩, ⟨1, "b1", 120⟩]⟩),
            ("coinbase", ⟨[⟨0, "c0", 100⟩, ⟨1, "c1", 110⟩]⟩)]⟩)]
      = .ok ⟨2, 7/20, 0, 0, 1/23⟩ :=
  insights_aggregation_spec.2.2.2.2

/-- C9 counterexample: a run whose one coin yields perfectly usable metrics
but a null cross-venue spread (single venue) crashes with a
`StatisticsError` instead of succeeding, refuting the claim that the run
fails only when zero assets yield usable metrics or the catalog is
unreadable. -/
theorem insights_all_null_spreads_errors :
    perCoinRun (fun _ => (0 : ℚ)) (fun _ => (0 : ℚ)) ["AAA"]
        [("AAA", ⟨[("binance", ⟨[⟨0, "a0", 100⟩, ⟨1, "a1", 150⟩]⟩)]⟩)]
      = .ok [("AAA", ⟨"AAA", "binance", none, none, ⟨"a0", "a1", 2, 1/2, 0, 0⟩⟩)]
    ∧ mainModel (fun _ => (0 : ℚ)) (fun _ => (0 : ℚ)) ["AAA"]
        [("AAA", ⟨[("binance", ⟨[⟨0, "a0", 100⟩, ⟨1, "a1", 150⟩]⟩)]⟩)]
      = .error .statsError := by
  constructor
  · norm_num +decide [perCoinRun, buildCoinMetrics, computeSeriesMetrics,
      logReturnsE, logReturnsAux, adjacentPairs, pvariance, maxDrawdownOf,
      drawdownStep, computeCrossExchangeSpread, spreadLists, spreadStep,
      allTsClosePairs, insertionKeys, insertionKeysAux, closesAt, listMax, listMin,
      medianQ, List.insertionSort, List.orderedInsert, exLookup,
      PRIMARY_EXCHANGE_ORDER, List.find?, Option.map]
  · norm_num +decide [mainModel, perCoinRun, buildCoinMetrics, computeSeriesMetrics,
      logReturnsE, logReturnsAux, adjacentPairs, pvariance, maxDrawdownOf,
      drawdownStep, computeCrossExchangeSpread, spreadLists, spreadStep,
      allTsClosePairs, insertionKeys, insertionKeysAux, closesAt, listMax, listMin,
      medianQ, List.insertionSort, List.orderedInsert, exLookup,
      PRIMARY_EXCHANGE_ORDER, List.find?, Option.map]

end QuantInsights
